import Mathlib

set_option maxHeartbeats 1000000

/-!
Verification of the core of `benchmark.py`: a union-find structure, Kruskal's
minimum-spanning-tree algorithm (sort + union-find) and Prim's algorithm
(lazy priority-queue expansion), as run by the benchmark harness.

Modelling conventions:
* Python lists become Lean `List`s; an out-of-range read is modelled by an
  explicit bounds check whose failure propagates as `none` (the Python code
  would raise `IndexError` there).
* The recursive `find` carries explicit fuel; `none` on exhaustion.  The fuel
  `parent.length + 1` is proved sufficient on all reachable states.
* `heapq` over `(weight, node)` pairs is modelled by a list kept sorted in
  the lexicographic tuple order Python uses; popping the head of the sorted
  list yields exactly the heap minimum.
* The adjacency structure is a `defaultdict(list)`, modelled by an
  insertion-ordered association list; reading a missing key appends an empty
  entry, exactly as `defaultdict.__getitem__` does.
-/

/-- An edge `(u, v, w)` as stored in the edge list. -/
abbrev Edge := Nat × Nat × Nat

/-- Reading `l[i]` on a Python list whose bounds have been checked by the
caller; the default is never reached on checked accesses. -/
def nth (l : List Nat) (i : Nat) : Nat := l.getD i 0

/-- The union-find state: `parent` and `rank` lists (Python lists). -/
structure UnionFind where
  parent : List Nat
  rank : List Nat
deriving DecidableEq

/-- Constructor `UnionFind(n)`: `parent = list(range(n + 1))`,
`rank = [0] * (n + 1)`. -/
def UnionFind.init (n : Nat) : UnionFind :=
  ⟨List.range (n + 1), List.replicate (n + 1) 0⟩

/-- Recursive `find` with path compression (lines 16-20), with explicit fuel.
Returns the representative together with the updated (compressed) state;
`none` models an out-of-range index or fuel exhaustion. -/
def UnionFind.findAux : Nat → UnionFind → Nat → Option (Nat × UnionFind)
  | 0, _, _ => none
  | fuel + 1, uf, i =>
    if i < uf.parent.length then
      if nth uf.parent i = i then some (i, uf)
      else
        match UnionFind.findAux fuel uf (nth uf.parent i) with
        | none => none
        | some (r, uf1) => some (r, ⟨uf1.parent.set i r, uf1.rank⟩)
    else none

/-- Python's `find(i)`; the fuel `parent.length + 1` is proved sufficient on
all reachable union-find states. -/
def UnionFind.find (uf : UnionFind) (i : Nat) : Option (Nat × UnionFind) :=
  UnionFind.findAux (uf.parent.length + 1) uf i

/-- Python's `union(i, j)` (lines 22-34): find both roots, and if they
differ, attach by rank (swapping so `ri` is the higher-rank root), bumping
the rank on ties.  Returns whether a merge occurred. -/
def UnionFind.union (uf : UnionFind) (i j : Nat) : Option (Bool × UnionFind) :=
  match uf.find i with
  | none => none
  | some (root_i, uf1) =>
    match uf1.find j with
    | none => none
    | some (root_j, uf2) =>
      if root_i ≠ root_j then
        if root_i < uf2.rank.length ∧ root_j < uf2.rank.length then
          let ri := if nth uf2.rank root_i < nth uf2.rank root_j then root_j else root_i
          let rj := if nth uf2.rank root_i < nth uf2.rank root_j then root_i else root_j
          let uf3 : UnionFind := ⟨uf2.parent.set rj ri, uf2.rank⟩
          let uf4 : UnionFind :=
            if nth uf3.rank ri = nth uf3.rank rj then
              ⟨uf3.parent, uf3.rank.set ri (nth uf3.rank ri + 1)⟩
            else uf3
          some (true, uf4)
        else none
      else some (false, uf2)

/-- Ordering used to sort the edge list: by weight (`key=lambda x: x[2]`). -/
def edgeLE (a b : Edge) : Prop := a.2.2 ≤ b.2.2

instance : DecidableRel edgeLE := fun a b => by unfold edgeLE; infer_instance

instance : IsTotal Edge edgeLE := ⟨fun a b => Nat.le_total a.2.2 b.2.2⟩

instance : IsTrans Edge edgeLE := ⟨fun _ _ _ hab hbc => Nat.le_trans hab hbc⟩

/-- The main loop of `run_kruskal` (lines 78-81): over the sorted edges,
merge and accumulate weight and edge count when `union` succeeds. -/
def kruskalLoop : UnionFind → List Edge → Nat → Nat → Option (Nat × Nat)
  | _, [], mst_weight, edges_count => some (mst_weight, edges_count)
  | uf, (u, v, w) :: rest, mst_weight, edges_count =>
    match uf.union u v with
    | none => none
    | some (true, uf1) => kruskalLoop uf1 rest (mst_weight + w) (edges_count + 1)
    | some (false, uf1) => kruskalLoop uf1 rest mst_weight edges_count

/-- `run_kruskal(num_nodes, edges)` (lines 67-84): sort a fresh copy of the
edge list by weight (Python's stable `sorted`, here a stable insertion
sort), fold the union-find over it, and return the MST weight.  The
elapsed-time component is timing instrumentation and is not modelled. -/
def run_kruskal (num_nodes : Nat) (edges : List Edge) : Option Nat :=
  (kruskalLoop (UnionFind.init num_nodes) (List.insertionSort edgeLE edges) 0 0).map
    (fun res => res.1)

/-- Adjacency structure: insertion-ordered association list, modelling the
Python `defaultdict(list)` mapping a vertex to its `(weight, neighbor)`
pairs. -/
abbrev Adj := List (Nat × List (Nat × Nat))

/-- Association-list lookup by key (Python dict lookup). -/
def alookup : Adj → Nat → Option (List (Nat × Nat))
  | [], _ => none
  | (k, l) :: rest, u => if k = u then some l else alookup rest u

/-- Reading `adj[u]` on a `defaultdict(list)`: a present key returns its
list; a missing key inserts `(u, [])` at the end (Python dicts keep
insertion order) and returns the empty list. -/
def dictGet (adj : Adj) (u : Nat) : List (Nat × Nat) × Adj :=
  match alookup adj u with
  | some l => (l, adj)
  | none => ([], adj ++ [(u, [])])

/-- Lexicographic order on heap entries `(weight, node)`, the order Python
uses to compare tuples inside `heapq`. -/
def entryLE (a b : Nat × Nat) : Prop := a.1 < b.1 ∨ (a.1 = b.1 ∧ a.2 ≤ b.2)

instance : DecidableRel entryLE := fun a b => by unfold entryLE; infer_instance

instance : IsTotal (Nat × Nat) entryLE := by
  constructor
  intro a b
  unfold entryLE
  rcases Nat.lt_trichotomy a.1 b.1 with h | h | h
  · exact Or.inl (Or.inl h)
  · rcases Nat.le_total a.2 b.2 with h2 | h2
    · exact Or.inl (Or.inr ⟨h, h2⟩)
    · exact Or.inr (Or.inr ⟨h.symm, h2⟩)
  · exact Or.inr (Or.inl h)

instance : IsTrans (Nat × Nat) entryLE := by
  constructor
  intro a b c hab hbc
  unfold entryLE at *
  rcases hab with h1 | ⟨h1, h1'⟩
  · rcases hbc with h2 | ⟨h2, _⟩
    · exact Or.inl (Nat.lt_trans h1 h2)
    · exact Or.inl (h2 ▸ h1)
  · rcases hbc with h2 | ⟨h2, h2'⟩
    · exact Or.inl (h1 ▸ h2)
    · exact Or.inr ⟨h1.trans h2, h1'.trans h2'⟩

/-- `heapq.heappush`, modelled as ordered insertion into the sorted queue. -/
def heappush (pq : List (Nat × Nat)) (e : Nat × Nat) : List (Nat × Nat) :=
  List.orderedInsert entryLE e pq

/-- The main loop of `run_prim` (lines 94-105), with explicit fuel.  State:
`(num_nodes, pq, visited, mst_weight, adj)`; the loop runs while the queue
is non-empty and fewer than `num_nodes` vertices are visited; a popped
visited vertex is skipped (lazy deletion); otherwise the vertex is visited,
its weight accumulated, and its unvisited neighbors pushed.  Returns the
full final loop state `(mst_weight, pq, visited, adj)`; `none` models fuel
exhaustion and is proved not to occur on actual runs. -/
def primLoop : Nat → Nat → List (Nat × Nat) → List Nat → Nat → Adj →
    Option (Nat × List (Nat × Nat) × List Nat × Adj)
  | 0, _, _, _, _, _ => none
  | _ + 1, _, [], visited, mst_weight, adj =>
    some (mst_weight, [], visited, adj)
  | fuel + 1, num_nodes, (w, u) :: rest, visited, mst_weight, adj =>
    if num_nodes ≤ visited.length then
      some (mst_weight, (w, u) :: rest, visited, adj)
    else if u ∈ visited then
      primLoop fuel num_nodes rest visited mst_weight adj
    else
      let res := dictGet adj u
      let pq1 := res.1.foldl (fun q p => if p.2 ∈ u :: visited then q else heappush q p) rest
      primLoop fuel num_nodes pq1 (u :: visited) (mst_weight + w) res.2

/-- Total length of all adjacency value lists; each loop iteration pops one
entry and at most `adjSize adj + 1` entries are ever queued, so
`adjSize adj + 2` is sufficient fuel. -/
def adjSize (adj : Adj) : Nat := (adj.map (fun kv => kv.2.length)).sum

/-- `run_prim(num_nodes, adj)` (lines 86-108): seed the queue with `(0, 1)`
and run the loop.  Returns the MST weight together with the final adjacency
structure (made explicit because the `defaultdict` mutates on missing-key
reads); the elapsed-time component is not modelled. -/
def run_prim (num_nodes : Nat) (adj : Adj) : Option (Nat × Adj) :=
  (primLoop (adjSize adj + 2) num_nodes [(0, 1)] [] 0 adj).map
    (fun st => (st.1, st.2.2.2))

/-! ### Specification-side definitions -/

/-- Pure parent-pointer chase without compression, used as the
specification of the representative that `findAux` computes. -/
def rootAux : Nat → UnionFind → Nat → Option Nat
  | 0, _, _ => none
  | fuel + 1, uf, i =>
    if i < uf.parent.length then
      if nth uf.parent i = i then some i
      else rootAux fuel uf (nth uf.parent i)
    else none

/-- The representative of `i` in state `uf` (pure, no compression). -/
def UnionFind.root (uf : UnionFind) (i : Nat) : Option Nat :=
  rootAux (uf.parent.length + 1) uf i

/-- Two vertices lie in the same union-find set: their representatives are
defined and equal. -/
def sameSet (uf : UnionFind) (a b : Nat) : Prop :=
  ∃ r, uf.root a = some r ∧ uf.root b = some r

/-- Structural invariant of reachable union-find states: `rank` and
`parent` have equal length, parent pointers stay in range, and ranks
strictly increase along the parent pointer of every non-root. -/
structure UFInv (uf : UnionFind) : Prop where
  rank_len : uf.rank.length = uf.parent.length
  parent_lt : ∀ i, i < uf.parent.length → nth uf.parent i < uf.parent.length
  rank_lt : ∀ i, i < uf.parent.length → nth uf.parent i ≠ i →
    nth uf.rank i < nth uf.rank (nth uf.parent i)

/-- Iterated parent pointer (`k` steps up from `i`). -/
def pIter (uf : UnionFind) : Nat → Nat → Nat
  | 0, i => i
  | k + 1, i => pIter uf k (nth uf.parent i)

/-- Vertex `j` lies on the parent chain starting at `x` (the nodes `find x`
visits, together with the root). -/
def reaches (uf : UnionFind) (x j : Nat) : Prop := ∃ k, pIter uf k x = j

/-- Run a sequence of `union` calls from a given state. -/
def applyUnions : UnionFind → List (Nat × Nat) → Option UnionFind
  | uf, [] => some uf
  | uf, (a, b) :: ps =>
    match uf.union a b with
    | none => none
    | some (_, uf1) => applyUnions uf1 ps

/-- States reachable from `UnionFind.init n` by `find` and `union` calls
with arguments in `[0, n]`. -/
inductive Reachable (n : Nat) : UnionFind → Prop
  | init : Reachable n (UnionFind.init n)
  | find {uf i r uf1} : Reachable n uf → i ≤ n → uf.find i = some (r, uf1) →
      Reachable n uf1
  | union {uf i j b uf1} : Reachable n uf → i ≤ n → j ≤ n →
      uf.union i j = some (b, uf1) → Reachable n uf1

/-- Reflexive-symmetric-transitive closure of a relation on vertices. -/
inductive RST (r : Nat → Nat → Prop) : Nat → Nat → Prop
  | base {a b} : r a b → RST r a b
  | refl (a) : RST r a a
  | symm {a b} : RST r a b → RST r b a
  | trans {a b c} : RST r a b → RST r b c → RST r a c

/-- Connectivity generated by a list of unioned pairs. -/
def JoinedPairs (ps : List (Nat × Nat)) : Nat → Nat → Prop :=
  RST (fun a b => (a, b) ∈ ps)

/-- One endpoint pair of an edge drawn from an edge collection given by a
membership predicate. -/
def erel (P : Edge → Prop) (a b : Nat) : Prop := ∃ w, P (a, b, w)

/-- Graph connectivity over an edge collection given by a membership
predicate. -/
def connP (P : Edge → Prop) : Nat → Nat → Prop := RST (erel P)

/-- Graph connectivity over an edge list. -/
def lconn (es : List Edge) : Nat → Nat → Prop := connP (fun e => e ∈ es)

/-- Graph connectivity over an edge multiset. -/
def mconn (s : Multiset Edge) : Nat → Nat → Prop := connP (fun e => e ∈ s)

/-- Total weight of an edge list. -/
def wsum (es : List Edge) : Nat := (es.map fun e => e.2.2).sum

/-- Total weight of an edge multiset. -/
def mwsum (s : Multiset Edge) : Nat := (s.map fun e => e.2.2).sum

/-- `S` is a spanning subset of the graph `E`: it consists of edges of `E`
and preserves all of `E`'s connectivity.  A minimum-weight such subset has
exactly the weight of a minimum spanning forest of `E`. -/
def Spans (E S : List Edge) : Prop :=
  (∀ e, e ∈ S → e ∈ E) ∧ ∀ a b, lconn E a b → lconn S a b

/-- `k` is the minimum total weight over all spanning subsets of `E`
(the minimum-spanning-forest weight; for a connected graph, the MST
weight). -/
def IsMSFWeight (E : List Edge) (k : Nat) : Prop :=
  (∃ S, Spans E S ∧ wsum S = k) ∧ ∀ S, Spans E S → k ≤ wsum S

/-- `S` consists of edges of `E` and connects every pair of vertices of the
connected component of vertex 1. -/
def SpansFrom1 (E S : List Edge) : Prop :=
  (∀ e, e ∈ S → e ∈ E) ∧ ∀ a b, lconn E 1 a → lconn E 1 b → lconn S a b

/-- `k` is the minimum total weight over all subsets of `E` spanning the
connected component of vertex 1 (the MST weight of that component). -/
def IsComp1MSTWeight (E : List Edge) (k : Nat) : Prop :=
  (∃ S, SpansFrom1 E S ∧ wsum S = k) ∧ ∀ S, SpansFrom1 E S → k ≤ wsum S

/-- Symmetrization of a step relation (edges are traversable both ways). -/
def symcl (r : Nat → Nat → Prop) (a b : Nat) : Prop := r a b ∨ r b a

/-- A walk from `x` to `y` whose vertex sequence is `x :: p`, stepping only
along `symcl r`. -/
def isWalk (r : Nat → Nat → Prop) (x : Nat) (p : List Nat) (y : Nat) : Prop :=
  List.Chain' (symcl r) (x :: p) ∧ (x :: p).getLast? = some y

/-- The caller-visible content of the adjacency structure: the list stored
under a key, or `[]` for an absent key (a `defaultdict(list)` behaves this
way on read, up to the key-insertion side effect). -/
def AdjView (adj : Adj) (u : Nat) : List (Nat × Nat) := (alookup adj u).getD []

/-- The adjacency structure holds both directions of every edge of the
edge list, and nothing else (what `read_dimacs_graph` builds). -/
def AdjMatches (adj : Adj) (edges : List Edge) : Prop :=
  ∀ a wt b, (wt, b) ∈ AdjView adj a ↔ ((a, b, wt) ∈ edges ∨ (b, a, wt) ∈ edges)

/-- All edge endpoints lie in the vertex range `[1, n]`. -/
def endpointsOK (n : Nat) (edges : List Edge) : Prop :=
  ∀ e, e ∈ edges → 1 ≤ e.1 ∧ e.1 ≤ n ∧ 1 ≤ e.2.1 ∧ e.2.1 ≤ n

/-- Total adjacency length over the not-yet-visited keys; together with the
queue length this is a strictly decreasing measure of Prim's loop. -/
def unvisitedSize (adj : Adj) (visited : List Nat) : Nat :=
  (adj.map fun kv => if kv.1 ∈ visited then 0 else kv.2.length).sum

/-- Decreasing measure for Prim's loop. -/
def primPhi (pq : List (Nat × Nat)) (visited : List Nat) (adj : Adj) : Nat :=
  pq.length + unvisitedSize adj visited

/-! ### List access helpers -/

lemma nth_set_self {l : List Nat} {i : Nat} (v : Nat) (h : i < l.length) :
    nth (l.set i v) i = v := by
  simp [nth, List.getD_eq_getElem?_getD, List.getElem?_set_self, h]

lemma nth_set_ne {l : List Nat} {i j : Nat} (v : Nat) (h : i ≠ j) :
    nth (l.set i v) j = nth l j := by
  simp [nth, List.getD_eq_getElem?_getD, List.getElem?_set_ne h]

lemma nth_range {n k : Nat} (h : k < n) : nth (List.range n) k = k := by
  simp [nth, List.getD_eq_getElem?_getD, List.getElem?_range h]

lemma nth_replicate {n k : Nat} : nth (List.replicate n 0) k = 0 := by
  rcases Nat.lt_or_ge k n with h | h
  · simp [nth, List.getD_eq_getElem?_getD, List.getElem?_replicate, h]
  · simp [nth, List.getD_eq_getElem?_getD, List.getElem?_eq_none (by simpa using h : (List.replicate n 0).length ≤ k)]

/-! ### Pure root chasing -/

lemma rootAux_mono {uf : UnionFind} :
    ∀ {fuel fuel' i r}, fuel ≤ fuel' → rootAux fuel uf i = some r →
      rootAux fuel' uf i = some r := by
  intro fuel
  induction fuel with
  | zero => intro fuel' i r _ h; simp [rootAux] at h
  | succ fuel ih =>
    intro fuel' i r hle h
    cases fuel' with
    | zero => omega
    | succ fuel' =>
      simp only [rootAux] at h ⊢
      by_cases hi : i < uf.parent.length
      · simp only [if_pos hi] at h ⊢
        by_cases hr : nth uf.parent i = i
        · simpa [hr] using h
        · simp only [if_neg hr] at h ⊢
          exact ih (Nat.le_of_succ_le_succ hle) h
      · simp [hi] at h

lemma rootAux_det {uf : UnionFind} {f1 f2 i r1 r2} (h1 : rootAux f1 uf i = some r1)
    (h2 : rootAux f2 uf i = some r2) : r1 = r2 := by
  have h1' := rootAux_mono (Nat.le_max_left f1 f2) h1
  have h2' := rootAux_mono (Nat.le_max_right f1 f2) h2
  rw [h1'] at h2'
  exact Option.some.inj h2'

lemma rootAux_spec {uf : UnionFind} : ∀ {fuel i r}, rootAux fuel uf i = some r →
    r < uf.parent.length ∧ nth uf.parent r = r := by
  intro fuel
  induction fuel with
  | zero => intro i r h; simp [rootAux] at h
  | succ fuel ih =>
    intro i r h
    simp only [rootAux] at h
    by_cases hi : i < uf.parent.length
    · simp only [if_pos hi] at h
      by_cases hr : nth uf.parent i = i
      · simp only [if_pos hr] at h
        injection h with h
        subst h
        exact ⟨hi, hr⟩
      · simp only [if_neg hr] at h
        exact ih h
    · simp [hi] at h

lemma rootAux_of_fix {uf : UnionFind} {i : Nat} (hi : i < uf.parent.length)
    (hfix : nth uf.parent i = i) {fuel : Nat} :
    rootAux (fuel + 1) uf i = some i := by
  simp [rootAux, hi, hfix]

lemma root_of_fix {uf : UnionFind} {i : Nat} (hi : i < uf.parent.length)
    (hfix : nth uf.parent i = i) : uf.root i = some i :=
  rootAux_of_fix hi hfix

lemma root_root {uf : UnionFind} {i r} (h : uf.root i = some r) : uf.root r = some r := by
  obtain ⟨hlt, hfix⟩ := rootAux_spec h
  exact root_of_fix hlt hfix

lemma rootAux_parent_congr {uf uf' : UnionFind} (h : uf.parent = uf'.parent) :
    ∀ fuel i, rootAux fuel uf i = rootAux fuel uf' i := by
  intro fuel
  induction fuel with
  | zero => intro i; simp [rootAux]
  | succ fuel ih =>
    intro i
    simp only [rootAux, h]
    by_cases hi : i < uf'.parent.length
    · simp only [if_pos hi]
      by_cases hr : nth uf'.parent i = i
      · simp [hr]
      · simp only [if_neg hr]
        exact ih _
    · simp [hi]

lemma pIter_succ_right (uf : UnionFind) (k i : Nat) :
    pIter uf (k + 1) i = nth uf.parent (pIter uf k i) := by
  induction k generalizing i with
  | zero => rfl
  | succ k ih =>
    show pIter uf (k + 1) (nth uf.parent i) = _
    rw [ih]
    rfl

lemma rootAux_none_chain {uf : UnionFind} (inv : UFInv uf) :
    ∀ {fuel i}, i < uf.parent.length → rootAux fuel uf i = none →
      ∀ k, k < fuel → pIter uf k i < uf.parent.length ∧
        nth uf.parent (pIter uf k i) ≠ pIter uf k i := by
  intro fuel
  induction fuel with
  | zero => intro i _ _ k hk; omega
  | succ fuel ih =>
    intro i hi h k hk
    simp only [rootAux, if_pos hi] at h
    by_cases hr : nth uf.parent i = i
    · simp [hr] at h
    · simp only [if_neg hr] at h
      cases k with
      | zero => exact ⟨hi, hr⟩
      | succ k =>
        show pIter uf k (nth uf.parent i) < _ ∧ _
        exact ih (inv.parent_lt i hi) h k (Nat.lt_of_succ_lt_succ hk)

lemma chain_rank_succ {uf : UnionFind} (inv : UFInv uf) {i K : Nat}
    (hch : ∀ k, k < K → pIter uf k i < uf.parent.length ∧
      nth uf.parent (pIter uf k i) ≠ pIter uf k i) :
    ∀ k, k < K → nth uf.rank (pIter uf k i) < nth uf.rank (pIter uf (k + 1) i) := by
  intro k hk
  rw [pIter_succ_right]
  exact inv.rank_lt _ (hch k hk).1 (hch k hk).2

lemma chain_rank_strict {uf : UnionFind} (inv : UFInv uf) {i K : Nat}
    (hch : ∀ k, k < K → pIter uf k i < uf.parent.length ∧
      nth uf.parent (pIter uf k i) ≠ pIter uf k i) :
    ∀ j k, j < k → k ≤ K → nth uf.rank (pIter uf j i) < nth uf.rank (pIter uf k i) := by
  intro j k
  induction k with
  | zero => omega
  | succ k ih =>
    intro hjk hk
    rcases Nat.lt_or_ge j k with h | h
    · exact Nat.lt_trans (ih h (Nat.le_of_succ_le hk))
        (chain_rank_succ inv hch k (Nat.lt_of_succ_le hk))
    · have : j = k := by omega
      subst this
      exact chain_rank_succ inv hch j (Nat.lt_of_succ_le hk)

lemma root_total {uf : UnionFind} (inv : UFInv uf) {i : Nat} (hi : i < uf.parent.length) :
    ∃ r, rootAux uf.parent.length uf i = some r := by
  by_contra hcon
  push_neg at hcon
  have hnone : rootAux uf.parent.length uf i = none := by
    cases hh : rootAux uf.parent.length uf i with
    | none => rfl
    | some r => exact absurd hh (hcon r)
  have hch := rootAux_none_chain inv hi hnone
  have hlt : ∀ k, k ≤ uf.parent.length → pIter uf k i < uf.parent.length := by
    intro k hk
    rcases Nat.lt_or_ge k uf.parent.length with h | h
    · exact (hch k h).1
    · have hke : k = uf.parent.length := Nat.le_antisymm hk h
      cases k with
      | zero => exact hi
      | succ m =>
        rw [pIter_succ_right]
        exact inv.parent_lt _ (hch m (by omega)).1
  have hinj : Function.Injective
      (fun k : Fin (uf.parent.length + 1) =>
        (⟨pIter uf k i, hlt k (Nat.le_of_lt_succ k.isLt)⟩ : Fin uf.parent.length)) := by
    intro a b hab
    simp only [Fin.mk.injEq] at hab
    by_contra hne
    have hvne : (a : Nat) ≠ (b : Nat) := fun h => hne (Fin.ext h)
    rcases Nat.lt_or_ge (a : Nat) (b : Nat) with h | h
    · have := chain_rank_strict inv (fun k hk => hch k hk) (a : Nat) (b : Nat) h
        (Nat.le_of_lt_succ b.isLt)
      rw [hab] at this
      omega
    · have hba : (b : Nat) < (a : Nat) := by omega
      have := chain_rank_strict inv (fun k hk => hch k hk) (b : Nat) (a : Nat) hba
        (Nat.le_of_lt_succ a.isLt)
      rw [hab] at this
      omega
  have hcard := Fintype.card_le_of_injective _ hinj
  simp only [Fintype.card_fin] at hcard
  omega

lemma root_isSome {uf : UnionFind} (inv : UFInv uf) {i : Nat} (hi : i < uf.parent.length) :
    ∃ r, uf.root i = some r :=
  (root_total inv hi).imp fun _ h => rootAux_mono (Nat.le_succ _) h

lemma root_eq_of_rootAux {uf : UnionFind} (inv : UFInv uf) {fuel i r}
    (h : rootAux fuel uf i = some r) (hi : i < uf.parent.length) : uf.root i = some r := by
  obtain ⟨r', hr'⟩ := root_total inv hi
  have hrr : r' = r := rootAux_det hr' h
  subst hrr
  exact rootAux_mono (Nat.le_succ _) hr'

lemma rank_lt_root {uf : UnionFind} (inv : UFInv uf) :
    ∀ {fuel i r}, rootAux fuel uf i = some r → i ≠ r →
      nth uf.rank i < nth uf.rank r := by
  intro fuel
  induction fuel with
  | zero => intro i r h; simp [rootAux] at h
  | succ fuel ih =>
    intro i r h hne
    simp only [rootAux] at h
    by_cases hi : i < uf.parent.length
    · simp only [if_pos hi] at h
      by_cases hr : nth uf.parent i = i
      · simp only [if_pos hr] at h
        injection h with h
        exact absurd h hne
      · simp only [if_neg hr] at h
        have hstep := inv.rank_lt i hi hr
        by_cases hpr : nth uf.parent i = r
        · rw [hpr] at hstep
          exact hstep
        · exact Nat.lt_trans hstep (ih h hpr)
    · simp [hi] at h

lemma root_step {uf : UnionFind} (inv : UFInv uf) {i : Nat} (hi : i < uf.parent.length)
    (hnr : nth uf.parent i ≠ i) : uf.root i = uf.root (nth uf.parent i) := by
  obtain ⟨r, hr⟩ := root_total inv (inv.parent_lt i hi)
  have h1 : uf.root i = some r := by
    show rootAux (uf.parent.length + 1) uf i = some r
    simp only [rootAux, if_pos hi, if_neg hnr]
    exact hr
  have h2 : uf.root (nth uf.parent i) = some r := rootAux_mono (Nat.le_succ _) hr
  rw [h1, h2]

/-! ### The compressing find: state characterization -/

lemma findAux_state {uf : UnionFind} :
    ∀ {fuel i r uf1}, UnionFind.findAux fuel uf i = some (r, uf1) →
      uf1.parent.length = uf.parent.length ∧ uf1.rank = uf.rank := by
  intro fuel
  induction fuel with
  | zero => intro i r uf1 h; simp [UnionFind.findAux] at h
  | succ fuel ih =>
    intro i r uf1 h
    simp only [UnionFind.findAux] at h
    by_cases hi : i < uf.parent.length
    · simp only [if_pos hi] at h
      by_cases hr : nth uf.parent i = i
      · simp only [if_pos hr, Option.some.injEq, Prod.mk.injEq] at h
        obtain ⟨rfl, rfl⟩ := h
        exact ⟨rfl, rfl⟩
      · simp only [if_neg hr] at h
        split at h
        · simp at h
        · rename_i r0 ufm hm
          simp only [Option.some.injEq, Prod.mk.injEq] at h
          obtain ⟨rfl, rfl⟩ := h
          have hst := ih hm
          refine ⟨?_, hst.2⟩
          simpa using hst.1
    · simp [hi] at h

lemma findAux_rootAux {uf : UnionFind} :
    ∀ {fuel i r uf1}, UnionFind.findAux fuel uf i = some (r, uf1) →
      rootAux fuel uf i = some r := by
  intro fuel
  induction fuel with
  | zero => intro i r uf1 h; simp [UnionFind.findAux] at h
  | succ fuel ih =>
    intro i r uf1 h
    simp only [UnionFind.findAux] at h
    simp only [rootAux]
    by_cases hi : i < uf.parent.length
    · simp only [if_pos hi] at h ⊢
      by_cases hr : nth uf.parent i = i
      · simp only [if_pos hr, Option.some.injEq, Prod.mk.injEq] at h ⊢
        exact h.1
      · simp only [if_neg hr] at h ⊢
        split at h
        · simp at h
        · rename_i r0 ufm hm
          simp only [Option.some.injEq, Prod.mk.injEq] at h
          obtain ⟨rfl, _⟩ := h
          exact ih hm
    · simp [hi] at h

lemma rootAux_findAux {uf : UnionFind} :
    ∀ {fuel i r}, rootAux fuel uf i = some r →
      ∃ uf1, UnionFind.findAux fuel uf i = some (r, uf1) := by
  intro fuel
  induction fuel with
  | zero => intro i r h; simp [rootAux] at h
  | succ fuel ih =>
    intro i r h
    simp only [rootAux] at h
    simp only [UnionFind.findAux]
    by_cases hi : i < uf.parent.length
    · simp only [if_pos hi] at h ⊢
      by_cases hr : nth uf.parent i = i
      · simp only [if_pos hr, Option.some.injEq] at h
        subst h
        exact ⟨uf, by simp [hr]⟩
      · simp only [if_neg hr] at h ⊢
        obtain ⟨ufm, hm⟩ := ih h
        rw [hm]
        exact ⟨_, rfl⟩
    · simp [hi] at h

lemma find_succeeds {uf : UnionFind} (inv : UFInv uf) {i : Nat}
    (hi : i < uf.parent.length) :
    ∃ r uf1, uf.find i = some (r, uf1) ∧ uf.root i = some r := by
  obtain ⟨r, hr⟩ := root_isSome inv hi
  obtain ⟨uf1, h1⟩ := rootAux_findAux hr
  exact ⟨r, uf1, h1, hr⟩

lemma findAux_parent_char {uf : UnionFind} (inv : UFInv uf) :
    ∀ {fuel i r uf1}, UnionFind.findAux fuel uf i = some (r, uf1) →
      ∀ j, nth uf1.parent j = nth uf.parent j ∨
        (uf.root j = some r ∧ nth uf1.parent j = r) := by
  intro fuel
  induction fuel with
  | zero => intro i r uf1 h; simp [UnionFind.findAux] at h
  | succ fuel ih =>
    intro i r uf1 h j
    have hroot : uf.root i = some r := by
      have h0 := findAux_rootAux h
      have hi : i < uf.parent.length := by
        by_contra hi
        simp [UnionFind.findAux, hi] at h
      exact root_eq_of_rootAux inv h0 hi
    simp only [UnionFind.findAux] at h
    by_cases hi : i < uf.parent.length
    · simp only [if_pos hi] at h
      by_cases hr : nth uf.parent i = i
      · simp only [if_pos hr, Option.some.injEq, Prod.mk.injEq] at h
        obtain ⟨rfl, rfl⟩ := h
        exact Or.inl rfl
      · simp only [if_neg hr] at h
        split at h
        · simp at h
        · rename_i r0 ufm hm
          simp only [Option.some.injEq, Prod.mk.injEq] at h
          obtain ⟨rfl, rfl⟩ := h
          by_cases hj : j = i
          · subst hj
            refine Or.inr ⟨hroot, ?_⟩
            show nth (ufm.parent.set j r0) j = r0
            exact nth_set_self r0 (by rw [(findAux_state hm).1]; exact hi)
          · have hup : nth (ufm.parent.set i r0) j = nth ufm.parent j :=
              nth_set_ne r0 (fun he => hj he.symm)
            rcases ih hm j with hc | ⟨hcr, hc⟩
            · refine Or.inl ?_
              show nth (ufm.parent.set i r0) j = nth uf.parent j
              rw [hup, hc]
            · refine Or.inr ⟨hcr, ?_⟩
              show nth (ufm.parent.set i r0) j = r0
              rw [hup, hc]
    · simp [hi] at h

lemma findAux_inv {uf : UnionFind} (inv : UFInv uf) {fuel i r uf1}
    (h : UnionFind.findAux fuel uf i = some (r, uf1)) : UFInv uf1 := by
  obtain ⟨hlen, hrank⟩ := findAux_state h
  have hchar := findAux_parent_char inv h
  have hroot := findAux_rootAux h
  have hi : i < uf.parent.length := by
    by_contra hi
    cases fuel with
    | zero => simp [UnionFind.findAux] at h
    | succ fuel => simp [UnionFind.findAux, hi] at h
  have hrspec := rootAux_spec hroot
  constructor
  · rw [hrank, hlen]
    exact inv.rank_len
  · intro j hj
    rw [hlen] at hj ⊢
    rcases hchar j with hc | ⟨_, hc⟩
    · rw [hc]
      exact inv.parent_lt j hj
    · rw [hc]
      exact hrspec.1
  · intro j hj hne
    rw [hlen] at hj
    rw [hrank]
    rcases hchar j with hc | ⟨hcr, hc⟩
    · rw [hc]
      exact inv.rank_lt j hj (by rwa [hc] at hne)
    · rw [hc]
      have hjr : j ≠ r := by
        intro he
        rw [hc] at hne
        exact hne (he ▸ rfl)
      exact rank_lt_root inv hcr hjr

lemma root_fix_preserved {uf uf1 : UnionFind} {r : Nat}
    (hchar : ∀ j, nth uf1.parent j = nth uf.parent j ∨
      (uf.root j = some r ∧ nth uf1.parent j = r))
    (hlen : uf1.parent.length = uf.parent.length) {ρ : Nat}
    (hρlt : ρ < uf.parent.length) (hρ : nth uf.parent ρ = ρ) :
    nth uf1.parent ρ = ρ ∧ uf1.root ρ = some ρ := by
  have hfix : nth uf1.parent ρ = ρ := by
    rcases hchar ρ with hc | ⟨hcr, hc⟩
    · rw [hc]; exact hρ
    · have hρr : uf.root ρ = some ρ := root_of_fix hρlt hρ
      rw [hρr] at hcr
      injection hcr with hcr
      rw [hc, ← hcr]
  exact ⟨hfix, root_of_fix (by rw [hlen]; exact hρlt) hfix⟩

lemma findAux_root_preserve {uf : UnionFind} (inv : UFInv uf) {fuel i r uf1}
    (h : UnionFind.findAux fuel uf i = some (r, uf1)) :
    ∀ j, j < uf.parent.length → uf1.root j = uf.root j := by
  obtain ⟨hlen, _⟩ := findAux_state h
  have inv1 := findAux_inv inv h
  have hchar := findAux_parent_char inv h
  have main : ∀ f j ρ, j < uf.parent.length → rootAux f uf j = some ρ →
      uf1.root j = some ρ := by
    intro f
    induction f with
    | zero => intro j ρ _ h0; simp [rootAux] at h0
    | succ f ih =>
      intro j ρ hj h0
      simp only [rootAux, if_pos hj] at h0
      by_cases hr : nth uf.parent j = j
      · simp only [if_pos hr, Option.some.injEq] at h0
        subst h0
        exact (root_fix_preserved hchar hlen hj hr).2
      · simp only [if_neg hr] at h0
        have hp := inv.parent_lt j hj
        have horig : rootAux (f + 1) uf j = some ρ := by
          simp only [rootAux, if_pos hj, if_neg hr]
          exact h0
        have hρ : uf.root j = some ρ := root_eq_of_rootAux inv horig hj
        have hρspec := rootAux_spec hρ
        rcases hchar j with hc | ⟨hcr, hc⟩
        · have hstep := root_step inv1 (show j < uf1.parent.length by rwa [hlen])
            (by rw [hc]; exact hr)
          rw [hstep, hc]
          exact ih _ _ hp h0
        · rw [hρ] at hcr
          injection hcr with hcr
          by_cases hjρ : j = ρ
          · subst hjρ
            exact absurd hρspec.2 hr
          · have hρfix := root_fix_preserved hchar hlen hρspec.1 hρspec.2
            have hstep := root_step inv1 (show j < uf1.parent.length by rwa [hlen])
              (by rw [hc, ← hcr]; exact fun he => hjρ he.symm)
            rw [hstep, hc, ← hcr]
            exact hρfix.2
  intro j hj
  obtain ⟨ρ, hρ⟩ := root_isSome inv hj
  rw [hρ]
  exact main _ j ρ hj hρ

lemma find_root_preserve {uf : UnionFind} (inv : UFInv uf) {i r uf1}
    (h : uf.find i = some (r, uf1)) :
    ∀ j, j < uf.parent.length → uf1.root j = uf.root j :=
  findAux_root_preserve inv h

lemma find_inv {uf : UnionFind} (inv : UFInv uf) {i r uf1}
    (h : uf.find i = some (r, uf1)) : UFInv uf1 :=
  findAux_inv inv h

lemma find_root {uf : UnionFind} (inv : UFInv uf) {i r uf1}
    (h : uf.find i = some (r, uf1)) : uf.root i = some r := by
  have h0 := findAux_rootAux h
  have hi : i < uf.parent.length := by
    by_contra hi
    simp [UnionFind.find, UnionFind.findAux, hi] at h
  exact root_eq_of_rootAux inv h0 hi

/-! ### Union: attaching one root below another -/

lemma link_analysis {uf2 uf4 : UnionFind} (inv : UFInv uf2) {ra rb : Nat}
    (hra : ra < uf2.parent.length) (hrb : rb < uf2.parent.length)
    (hfra : nth uf2.parent ra = ra) (hfrb : nth uf2.parent rb = rb)
    (hne : ra ≠ rb) (hrk : nth uf2.rank rb ≤ nth uf2.rank ra)
    (hp4 : uf4.parent = uf2.parent.set rb ra)
    (hr4 : uf4.rank = if nth uf2.rank ra = nth uf2.rank rb
      then uf2.rank.set ra (nth uf2.rank ra + 1) else uf2.rank) :
    UFInv uf4 ∧ uf4.parent.length = uf2.parent.length ∧
      nth uf4.parent rb = ra ∧
      ∀ k, k < uf2.parent.length →
        (uf2.root k = some rb → uf4.root k = some ra) ∧
        (uf2.root k ≠ some rb → uf4.root k = uf2.root k) := by
  have hlen4 : uf4.parent.length = uf2.parent.length := by rw [hp4, List.length_set]
  have hralen : ra < uf2.rank.length := by rw [inv.rank_len]; exact hra
  have hpar : ∀ m, nth uf4.parent m = if m = rb then ra else nth uf2.parent m := by
    intro m
    by_cases hm : m = rb
    · subst hm
      rw [hp4, if_pos rfl]
      exact nth_set_self ra hrb
    · rw [hp4, if_neg hm]
      exact nth_set_ne ra (fun he => hm he.symm)
  have hrk_ge : ∀ m, nth uf2.rank m ≤ nth uf4.rank m := by
    intro m
    rw [hr4]
    by_cases hc : nth uf2.rank ra = nth uf2.rank rb
    · rw [if_pos hc]
      by_cases hm : m = ra
      · subst hm
        rw [nth_set_self _ hralen]
        omega
      · rw [nth_set_ne _ (fun he => hm he.symm)]
    · rw [if_neg hc]
  have hrkrb : nth uf4.rank rb = nth uf2.rank rb := by
    rw [hr4]
    by_cases hc : nth uf2.rank ra = nth uf2.rank rb
    · rw [if_pos hc, nth_set_ne _ hne]
    · rw [if_neg hc]
  have hrkra_lt : nth uf4.rank rb < nth uf4.rank ra := by
    rw [hrkrb, hr4]
    by_cases hc : nth uf2.rank ra = nth uf2.rank rb
    · rw [if_pos hc, nth_set_self _ hralen]
      omega
    · rw [if_neg hc]
      exact Nat.lt_of_le_of_ne hrk (fun he => hc he.symm)
  have inv4 : UFInv uf4 := by
    constructor
    · rw [hlen4, hr4]
      by_cases hc : nth uf2.rank ra = nth uf2.rank rb
      · rw [if_pos hc, List.length_set]
        exact inv.rank_len
      · rw [if_neg hc]
        exact inv.rank_len
    · intro m hm
      rw [hlen4] at hm
      rw [hpar m, hlen4]
      by_cases hmrb : m = rb
      · rw [if_pos hmrb]
        exact hra
      · rw [if_neg hmrb]
        exact inv.parent_lt m hm
    · intro m hm hne4
      rw [hlen4] at hm
      rw [hpar m] at hne4 ⊢
      by_cases hmrb : m = rb
      · subst hmrb
        rw [if_pos rfl]
        exact hrkra_lt
      · rw [if_neg hmrb] at hne4 ⊢
        have hold := inv.rank_lt m hm hne4
        have hmra : m ≠ ra := by
          intro he
          subst he
          exact hne4 hfra
        have h4m : nth uf4.rank m = nth uf2.rank m := by
          rw [hr4]
          by_cases hc : nth uf2.rank ra = nth uf2.rank rb
          · rw [if_pos hc, nth_set_ne _ (fun he => hmra he.symm)]
          · rw [if_neg hc]
        rw [h4m]
        exact Nat.lt_of_lt_of_le hold (hrk_ge _)
  have hparb : nth uf4.parent rb = ra := by
    rw [hpar rb]
    simp
  have hrafix4 : nth uf4.parent ra = ra := by
    rw [hpar ra, if_neg hne]
    exact hfra
  have hroot4ra : uf4.root ra = some ra := root_of_fix (by rw [hlen4]; exact hra) hrafix4
  refine ⟨inv4, hlen4, hparb, ?_⟩
  have main : ∀ f k ρ, k < uf2.parent.length → rootAux f uf2 k = some ρ →
      (ρ = rb → uf4.root k = some ra) ∧ (ρ ≠ rb → uf4.root k = some ρ) := by
    intro f
    induction f with
    | zero => intro k ρ _ h0; simp [rootAux] at h0
    | succ f ih =>
      intro k ρ hk h0
      simp only [rootAux, if_pos hk] at h0
      by_cases hfix : nth uf2.parent k = k
      · simp only [if_pos hfix, Option.some.injEq] at h0
        subst h0
        constructor
        · intro hkrb
          subst hkrb
          have hstep := root_step inv4 (show k < uf4.parent.length by rw [hlen4]; exact hrb)
            (by rw [hparb]; exact hne)
          rw [hstep, hparb]
          exact hroot4ra
        · intro hkrb
          have hfix4 : nth uf4.parent k = k := by
            rw [hpar k, if_neg hkrb]
            exact hfix
          exact root_of_fix (by rw [hlen4]; exact hk) hfix4
      · simp only [if_neg hfix] at h0
        have hkrb : k ≠ rb := fun he => hfix (he ▸ hfrb)
        have hp4k : nth uf4.parent k = nth uf2.parent k := by rw [hpar k, if_neg hkrb]
        have hstep := root_step inv4 (show k < uf4.parent.length by rw [hlen4]; exact hk)
          (by rw [hp4k]; exact hfix)
        rw [hstep, hp4k]
        exact ih (nth uf2.parent k) ρ (inv.parent_lt k hk) h0
  intro k hk
  obtain ⟨ρ, hρ⟩ := root_isSome inv hk
  constructor
  · intro hkrb
    rw [hρ] at hkrb
    injection hkrb with hkrb
    exact (main _ k ρ hk hρ).1 hkrb
  · intro hne2
    rw [hρ] at hne2 ⊢
    exact (main _ k ρ hk hρ).2 (fun he => hne2 (by rw [he]))

/-! ### Union: full specification -/

lemma union_spec {uf : UnionFind} (inv : UFInv uf) {i j : Nat}
    (hi : i < uf.parent.length) (hj : j < uf.parent.length) :
    ∃ b uf', uf.union i j = some (b, uf') ∧ UFInv uf' ∧
      uf'.parent.length = uf.parent.length ∧
      ∃ ri rj, uf.root i = some ri ∧ uf.root j = some rj ∧
      ((b = false ∧ ri = rj ∧ uf'.rank = uf.rank ∧
          ∀ k, k < uf.parent.length → uf'.root k = uf.root k) ∨
        (b = true ∧ ri ≠ rj ∧ ∃ ra rb,
          ((nth uf.rank ri < nth uf.rank rj ∧ ra = rj ∧ rb = ri) ∨
            (¬ nth uf.rank ri < nth uf.rank rj ∧ ra = ri ∧ rb = rj)) ∧
          nth uf'.parent rb = ra ∧
          (nth uf.rank ra = nth uf.rank rb →
            uf'.rank = uf.rank.set ra (nth uf.rank ra + 1)) ∧
          (nth uf.rank ra ≠ nth uf.rank rb → uf'.rank = uf.rank) ∧
          ∀ k, k < uf.parent.length →
            (uf.root k = some rb → uf'.root k = some ra) ∧
            (uf.root k ≠ some rb → uf'.root k = uf.root k))) := by
  obtain ⟨ri, uf1, hfi, hri⟩ := find_succeeds inv hi
  have inv1 := find_inv inv hfi
  have hlen1 : uf1.parent.length = uf.parent.length := (findAux_state hfi).1
  have hrank1 : uf1.rank = uf.rank := (findAux_state hfi).2
  obtain ⟨rj, uf2, hfj, hrj1⟩ := find_succeeds inv1 (by rwa [hlen1])
  have inv2 := find_inv inv1 hfj
  have hlen2 : uf2.parent.length = uf.parent.length := by rw [(findAux_state hfj).1, hlen1]
  have hrank2 : uf2.rank = uf.rank := by rw [(findAux_state hfj).2, hrank1]
  have hrj : uf.root j = some rj := by
    rw [← find_root_preserve inv hfi j hj]
    exact hrj1
  have hpres2 : ∀ k, k < uf.parent.length → uf2.root k = uf.root k := by
    intro k hk
    rw [find_root_preserve inv1 hfj k (by rwa [hlen1]), find_root_preserve inv hfi k hk]
  have hri2 : uf2.root ri = some ri := by
    rw [hpres2 ri (rootAux_spec hri).1]
    exact root_root hri
  have hrj2 : uf2.root rj = some rj := by
    rw [hpres2 rj (rootAux_spec hrj).1]
    exact root_root hrj
  have hrifix : nth uf2.parent ri = ri := (rootAux_spec hri2).2
  have hrjfix : nth uf2.parent rj = rj := (rootAux_spec hrj2).2
  have hrilt : ri < uf2.parent.length := (rootAux_spec hri2).1
  have hrjlt : rj < uf2.parent.length := (rootAux_spec hrj2).1
  by_cases hrr : ri = rj
  · refine ⟨false, uf2, ?_, inv2, hlen2, ri, rj, hri, hrj,
      Or.inl ⟨rfl, hrr, hrank2, hpres2⟩⟩
    simp only [UnionFind.union, hfi, hfj]
    simp [hrr]
  · have hbound : ri < uf2.rank.length ∧ rj < uf2.rank.length := by
      rw [hrank2, inv.rank_len]
      exact ⟨by rwa [hlen2] at hrilt, by rwa [hlen2] at hrjlt⟩
    by_cases hcmp : nth uf2.rank ri < nth uf2.rank rj
    · -- swap: ra = rj, rb = ri
      set uf4 : UnionFind := ⟨uf2.parent.set ri rj,
        if nth uf2.rank rj = nth uf2.rank ri
        then uf2.rank.set rj (nth uf2.rank rj + 1) else uf2.rank⟩ with huf4
      have heq : uf.union i j = some (true, uf4) := by
        simp only [UnionFind.union, hfi, hfj]
        rw [if_pos hrr]
        rw [if_pos hbound]
        simp only [if_pos hcmp, huf4]
        split <;> rename_i hcond <;> simp [hcond]
      obtain ⟨inv4, hlen4, hparb, hmap⟩ := link_analysis inv2 hrjlt hrilt hrjfix hrifix
        (fun he => hrr he.symm) (Nat.le_of_lt hcmp)
        (show uf4.parent = uf2.parent.set ri rj from rfl)
        (show uf4.rank = _ from rfl)
      rw [hrank2] at hcmp
      refine ⟨true, uf4, heq, inv4, by rw [hlen4, hlen2], ri, rj, hri, hrj,
        Or.inr ⟨rfl, hrr, rj, ri, Or.inl ⟨hcmp, rfl, rfl⟩, hparb, ?_, ?_, ?_⟩⟩
      · intro hre
        omega
      · intro _
        show uf4.rank = uf.rank
        rw [huf4]
        show (if nth uf2.rank rj = nth uf2.rank ri
          then uf2.rank.set rj (nth uf2.rank rj + 1) else uf2.rank) = uf.rank
        rw [if_neg (by rw [hrank2]; omega), hrank2]
      · intro k hk
        have hm := hmap k (by rwa [hlen2])
        rw [hpres2 k hk] at hm
        exact hm
    · -- no swap: ra = ri, rb = rj
      set uf4 : UnionFind := ⟨uf2.parent.set rj ri,
        if nth uf2.rank ri = nth uf2.rank rj
        then uf2.rank.set ri (nth uf2.rank ri + 1) else uf2.rank⟩ with huf4
      have heq : uf.union i j = some (true, uf4) := by
        simp only [UnionFind.union, hfi, hfj]
        rw [if_pos hrr]
        rw [if_pos hbound]
        simp only [if_neg hcmp, huf4]
        split <;> rename_i hcond <;> simp [hcond]
      obtain ⟨inv4, hlen4, hparb, hmap⟩ := link_analysis inv2 hrilt hrjlt hrifix hrjfix
        hrr (Nat.le_of_not_lt hcmp)
        (show uf4.parent = uf2.parent.set rj ri from rfl)
        (show uf4.rank = _ from rfl)
      rw [hrank2] at hcmp
      refine ⟨true, uf4, heq, inv4, by rw [hlen4, hlen2], ri, rj, hri, hrj,
        Or.inr ⟨rfl, hrr, ri, rj, Or.inr ⟨hcmp, rfl, rfl⟩, hparb, ?_, ?_, ?_⟩⟩
      · intro hre
        show uf4.rank = uf.rank.set ri (nth uf.rank ri + 1)
        rw [huf4]
        show (if nth uf2.rank ri = nth uf2.rank rj
          then uf2.rank.set ri (nth uf2.rank ri + 1) else uf2.rank)
          = uf.rank.set ri (nth uf.rank ri + 1)
        rw [if_pos (by rw [hrank2]; exact hre), hrank2]
      · intro hre
        show uf4.rank = uf.rank
        rw [huf4]
        show (if nth uf2.rank ri = nth uf2.rank rj
          then uf2.rank.set ri (nth uf2.rank ri + 1) else uf2.rank) = uf.rank
        rw [if_neg (by rw [hrank2]; exact hre), hrank2]
      · intro k hk
        have hm := hmap k (by rwa [hlen2])
        rw [hpres2 k hk] at hm
        exact hm

/-! ### Initial state and reachability -/

lemma init_parent_length (n : Nat) : (UnionFind.init n).parent.length = n + 1 := by
  simp [UnionFind.init]

lemma init_inv (n : Nat) : UFInv (UnionFind.init n) := by
  refine ⟨by simp [UnionFind.init], ?_, ?_⟩
  · intro i hi
    rw [init_parent_length] at hi ⊢
    show nth (List.range (n + 1)) i < n + 1
    rw [nth_range hi]
    exact hi
  · intro i hi hne
    rw [init_parent_length] at hi
    exfalso
    apply hne
    show nth (List.range (n + 1)) i = i
    exact nth_range hi

lemma init_root {n i : Nat} (hi : i ≤ n) : (UnionFind.init n).root i = some i := by
  apply root_of_fix
  · rw [init_parent_length]
    omega
  · show nth (List.range (n + 1)) i = i
    exact nth_range (by omega)

lemma reachable_inv {n : Nat} {uf : UnionFind} (h : Reachable n uf) :
    UFInv uf ∧ uf.parent.length = n + 1 := by
  induction h with
  | init => exact ⟨init_inv n, init_parent_length n⟩
  | find _ hi hfind ih =>
    exact ⟨find_inv ih.1 hfind, by rw [(findAux_state hfind).1, ih.2]⟩
  | @union uf0 i j b uf1 _ hi hj huni ih =>
    obtain ⟨inv0, hlen0⟩ := ih
    obtain ⟨b', uf'', heq, inv', hlen', _⟩ := union_spec inv0
      (show i < uf0.parent.length by rw [hlen0]; omega)
      (show j < uf0.parent.length by rw [hlen0]; omega)
    rw [huni] at heq
    simp only [Option.some.injEq, Prod.mk.injEq] at heq
    obtain ⟨rfl, rfl⟩ := heq
    exact ⟨inv', by rw [hlen', hlen0]⟩

/-! ### The sameSet relation -/

lemma root_lt_of_some {uf : UnionFind} {x r : Nat} (h : uf.root x = some r) :
    x < uf.parent.length := by
  by_contra hx
  simp [UnionFind.root, rootAux, hx] at h

lemma sameSet_refl {uf : UnionFind} (inv : UFInv uf) {x : Nat}
    (hx : x < uf.parent.length) : sameSet uf x x := by
  obtain ⟨r, hr⟩ := root_isSome inv hx
  exact ⟨r, hr, hr⟩

lemma sameSet_symm {uf : UnionFind} {x y : Nat} (h : sameSet uf x y) : sameSet uf y x := by
  obtain ⟨r, h1, h2⟩ := h
  exact ⟨r, h2, h1⟩

lemma sameSet_trans {uf : UnionFind} {x y z : Nat} (h1 : sameSet uf x y)
    (h2 : sameSet uf y z) : sameSet uf x z := by
  obtain ⟨r, hx, hy⟩ := h1
  obtain ⟨s, hy', hz⟩ := h2
  rw [hy] at hy'
  injection hy' with hy'
  exact ⟨r, hx, hy' ▸ hz⟩

lemma sameSet_lt_left {uf : UnionFind} {x y : Nat} (h : sameSet uf x y) :
    x < uf.parent.length := by
  obtain ⟨r, hx, _⟩ := h
  exact root_lt_of_some hx

lemma sameSet_lt_right {uf : UnionFind} {x y : Nat} (h : sameSet uf x y) :
    y < uf.parent.length := by
  obtain ⟨r, _, hy⟩ := h
  exact root_lt_of_some hy

lemma init_sameSet {n x y : Nat} (hx : x ≤ n) (hy : y ≤ n) :
    sameSet (UnionFind.init n) x y ↔ x = y := by
  constructor
  · rintro ⟨r, h1, h2⟩
    rw [init_root hx] at h1
    rw [init_root hy] at h2
    injection h1 with h1
    injection h2 with h2
    rw [h1, h2]
  · rintro rfl
    exact ⟨x, init_root hx, init_root hx⟩

/-! ### Closure toolkit -/

lemma RST.mono {r s : Nat → Nat → Prop} (hrs : ∀ a b, r a b → s a b) {x y : Nat}
    (h : RST r x y) : RST s x y := by
  induction h with
  | base hab => exact RST.base (hrs _ _ hab)
  | refl a => exact RST.refl a
  | symm _ ih => exact RST.symm ih
  | trans _ _ ih1 ih2 => exact RST.trans ih1 ih2

lemma RST.collapse {r : Nat → Nat → Prop} {x y : Nat} (h : RST (RST r) x y) :
    RST r x y := by
  induction h with
  | base hab => exact hab
  | refl a => exact RST.refl a
  | symm _ ih => exact RST.symm ih
  | trans _ _ ih1 ih2 => exact RST.trans ih1 ih2

lemma RST_congr {r s : Nat → Nat → Prop} (hrs : ∀ a b, r a b → RST s a b)
    (hsr : ∀ a b, s a b → RST r a b) {x y : Nat} : RST r x y ↔ RST s x y :=
  ⟨fun h => RST.collapse (h.mono hrs), fun h => RST.collapse (h.mono hsr)⟩

lemma RST_le_of_equiv (E : Nat → Nat → Prop) (hsymm : ∀ a b, E a b → E b a)
    (htrans : ∀ a b c, E a b → E b c → E a c) {r : Nat → Nat → Prop}
    (hr : ∀ a b, r a b → E a b) {x y : Nat} (h : RST r x y) : x = y ∨ E x y := by
  induction h with
  | base hab => exact Or.inr (hr _ _ hab)
  | refl a => exact Or.inl rfl
  | symm _ ih =>
    rcases ih with rfl | hE
    · exact Or.inl rfl
    · exact Or.inr (hsymm _ _ hE)
  | trans _ _ ih1 ih2 =>
    rcases ih1 with rfl | hE1
    · exact ih2
    · rcases ih2 with rfl | hE2
      · exact Or.inr hE1
      · exact Or.inr (htrans _ _ _ hE1 hE2)

lemma sameSet_iff_roots {uf : UnionFind} {x y rx ry : Nat} (hx : uf.root x = some rx)
    (hy : uf.root y = some ry) : sameSet uf x y ↔ rx = ry := by
  constructor
  · rintro ⟨r, h1, h2⟩
    rw [hx] at h1
    rw [hy] at h2
    injection h1 with h1
    injection h2 with h2
    rw [h1, h2]
  · intro h
    exact ⟨rx, hx, h ▸ hy⟩

lemma union_sameSet {uf uf' : UnionFind} {b : Bool} {i j : Nat} (inv : UFInv uf)
    (hi : i < uf.parent.length) (hj : j < uf.parent.length)
    (huni : uf.union i j = some (b, uf')) :
    (b = true ↔ ¬ sameSet uf i j) ∧
    ∀ x y, x < uf.parent.length → y < uf.parent.length →
      (sameSet uf' x y ↔ (sameSet uf x y ∨ (sameSet uf x i ∧ sameSet uf j y) ∨
        (sameSet uf x j ∧ sameSet uf i y))) := by
  obtain ⟨b', uf', heq, inv', hlen', ri, rj, hri, hrj, hcase⟩ := union_spec inv hi hj
  rw [huni] at heq
  simp only [Option.some.injEq, Prod.mk.injEq] at heq
  obtain ⟨rfl, rfl⟩ := heq
  rcases hcase with ⟨hb, hrr, _, hpres⟩ | ⟨hb, hrr, ra, rb, hswap, _, _, _, hmap⟩
  · subst hb
    have hss : sameSet uf i j := ⟨ri, hri, by rw [hrj, hrr]⟩
    constructor
    · constructor
      · intro h
        exact absurd h (by simp)
      · intro hns
        exact absurd hss hns
    · have hpres_ss : ∀ x y, x < uf.parent.length → y < uf.parent.length →
          (sameSet uf' x y ↔ sameSet uf x y) := by
        intro x y hx hy
        show (∃ r, uf'.root x = some r ∧ uf'.root y = some r) ↔ _
        rw [hpres x hx, hpres y hy]
        exact Iff.rfl
      intro x y hx hy
      rw [hpres_ss x y hx hy]
      constructor
      · exact Or.inl
      · rintro (h | ⟨h1, h2⟩ | ⟨h1, h2⟩)
        · exact h
        · exact sameSet_trans h1 (sameSet_trans hss h2)
        · exact sameSet_trans h1 (sameSet_trans (sameSet_symm hss) h2)
  · subst hb
    have hnss : ¬ sameSet uf i j := by
      rw [sameSet_iff_roots hri hrj]
      exact hrr
    refine ⟨⟨fun _ => hnss, fun _ => rfl⟩, ?_⟩
    have hmap' : ∀ k, k < uf.parent.length → ∀ rk, uf.root k = some rk →
        uf'.root k = some (if rk = rb then ra else rk) := by
      intro k hk rk hrk
      by_cases hkb : rk = rb
      · rw [if_pos hkb]
        exact (hmap k hk).1 (by rw [hrk, hkb])
      · rw [if_neg hkb, ← hrk]
        exact (hmap k hk).2 (by rw [hrk]; exact fun he => hkb (Option.some.inj he))
    intro x y hx hy
    obtain ⟨rx, hrx⟩ := root_isSome inv hx
    obtain ⟨ry, hry⟩ := root_isSome inv hy
    rw [sameSet_iff_roots (hmap' x hx rx hrx) (hmap' y hy ry hry),
      sameSet_iff_roots hrx hry, sameSet_iff_roots hrx hri, sameSet_iff_roots hrj hry,
      sameSet_iff_roots hrx hrj, sameSet_iff_roots hri hry]
    rcases hswap with ⟨_, ha, hb2⟩ | ⟨_, ha, hb2⟩ <;> subst ha <;> subst hb2 <;>
      split_ifs <;> omega

lemma applyUnions_spec {n : Nat} : ∀ (ps : List (Nat × Nat)) (uf : UnionFind),
    UFInv uf → uf.parent.length = n + 1 →
    (∀ p, p ∈ ps → p.1 ≤ n ∧ p.2 ≤ n) →
    ∃ uf', applyUnions uf ps = some uf' ∧ UFInv uf' ∧ uf'.parent.length = n + 1 ∧
      ∀ x y, x ≤ n → y ≤ n →
        (sameSet uf' x y ↔ RST (fun a b => sameSet uf a b ∨ (a, b) ∈ ps) x y) := by
  intro ps
  induction ps with
  | nil =>
    intro uf inv hlen _
    refine ⟨uf, rfl, inv, hlen, ?_⟩
    intro x y hx hy
    constructor
    · intro h
      exact RST.base (Or.inl h)
    · intro h
      rcases RST_le_of_equiv (sameSet uf) (fun a b hab => sameSet_symm hab)
        (fun a b c h1 h2 => sameSet_trans h1 h2)
        (fun a b hab => by
          rcases hab with h' | h'
          · exact h'
          · simp at h') h with rfl | hE
      · exact sameSet_refl inv (by omega)
      · exact hE
  | cons p ps ih =>
    obtain ⟨a, b⟩ := p
    intro uf inv hlen hps
    have ha : a ≤ n := (hps (a, b) (List.mem_cons_self ..)).1
    have hb : b ≤ n := (hps (a, b) (List.mem_cons_self ..)).2
    obtain ⟨bb, uf1, huni, inv1, hlen1, _⟩ := union_spec inv
      (show a < uf.parent.length by omega) (show b < uf.parent.length by omega)
    have hjoin := (union_sameSet inv (by omega) (by omega) huni).2
    obtain ⟨uf', happ, inv', hlen', hiff⟩ := ih uf1 inv1 (by rw [hlen1, hlen])
      (fun q hq => hps q (List.mem_cons_of_mem _ hq))
    refine ⟨uf', ?_, inv', hlen', ?_⟩
    · show applyUnions uf ((a, b) :: ps) = some uf'
      simp only [applyUnions, huni]
      exact happ
    · intro x y hx hy
      rw [hiff x y hx hy]
      apply RST_congr
      · intro p q hpq
        rcases hpq with hpq | hpq
        · have hplt : p < uf.parent.length := by
            have := sameSet_lt_left hpq
            rwa [hlen1] at this
          have hqlt : q < uf.parent.length := by
            have := sameSet_lt_right hpq
            rwa [hlen1] at this
          rw [hjoin p q hplt hqlt] at hpq
          rcases hpq with h | ⟨h1, h2⟩ | ⟨h1, h2⟩
          · exact RST.base (Or.inl h)
          · exact RST.trans (RST.base (Or.inl h1))
              (RST.trans (RST.base (Or.inr (List.mem_cons_self ..)))
                (RST.base (Or.inl h2)))
          · exact RST.trans (RST.base (Or.inl h1))
              (RST.trans (RST.symm (RST.base (Or.inr (List.mem_cons_self ..))))
                (RST.base (Or.inl h2)))
        · exact RST.base (Or.inr (List.mem_cons_of_mem _ hpq))
      · intro p q hpq
        rcases hpq with hpq | hpq
        · have hplt := sameSet_lt_left hpq
          have hqlt := sameSet_lt_right hpq
          exact RST.base (Or.inl (by rw [hjoin p q hplt hqlt]; exact Or.inl hpq))
        · rcases List.mem_cons.mp hpq with he | hmem
          · have hpa : p = a := by
              rw [Prod.ext_iff] at he
              exact he.1
            have hqb : q = b := by
              rw [Prod.ext_iff] at he
              exact he.2
            subst hpa
            subst hqb
            refine RST.base (Or.inl ?_)
            rw [hjoin p q (by omega) (by omega)]
            exact Or.inr (Or.inl ⟨sameSet_refl inv (by omega), sameSet_refl inv (by omega)⟩)
          · exact RST.base (Or.inr hmem)

/-- C3: for a union-find built by `UnionFind(n)` and any sequence of `union`
calls with arguments in `[0, n]`, and any `a, b` in `[0, n]`, the sequence
executes without error and `find(a) == find(b)` holds exactly when `a` and
`b` are connected by the reflexive-symmetric-transitive closure of the
unioned pairs. -/
theorem C3_union_find_connectivity (n : Nat) (ps : List (Nat × Nat)) (a b : Nat)
    (hps : ∀ p, p ∈ ps → p.1 ≤ n ∧ p.2 ≤ n) (ha : a ≤ n) (hb : b ≤ n) :
    ∃ uf', applyUnions (UnionFind.init n) ps = some uf' ∧
      ∃ ra ufa rb ufb, uf'.find a = some (ra, ufa) ∧ ufa.find b = some (rb, ufb) ∧
        (ra = rb ↔ JoinedPairs ps a b) := by
  obtain ⟨uf', happ, inv', hlen', hiff⟩ := applyUnions_spec ps (UnionFind.init n)
    (init_inv n) (init_parent_length n) hps
  obtain ⟨ra, ufa, hfa, hroota⟩ := find_succeeds inv' (show a < uf'.parent.length by omega)
  have inva := find_inv inv' hfa
  have hlena : ufa.parent.length = uf'.parent.length := (findAux_state hfa).1
  obtain ⟨rb, ufb, hfb, hrootb1⟩ := find_succeeds inva
    (show b < ufa.parent.length by rw [hlena]; omega)
  have hrootb : uf'.root b = some rb := by
    rw [← find_root_preserve inv' hfa b (by omega)]
    exact hrootb1
  refine ⟨uf', happ, ra, ufa, rb, ufb, hfa, hfb, ?_⟩
  rw [← sameSet_iff_roots hroota hrootb]
  rw [hiff a b ha hb]
  show RST _ a b ↔ RST (fun p q => (p, q) ∈ ps) a b
  apply RST_congr
  · intro p q hpq
    rcases hpq with hpq | hpq
    · have hp : p ≤ n := by
        have := sameSet_lt_left hpq
        rw [init_parent_length] at this
        omega
      have hq : q ≤ n := by
        have := sameSet_lt_right hpq
        rw [init_parent_length] at this
        omega
      rw [init_sameSet hp hq] at hpq
      subst hpq
      exact RST.refl p
    · exact RST.base hpq
  · intro p q hpq
    exact RST.base (Or.inr hpq)

theorem C3_witness :
    ((∀ p, p ∈ [((0 : Nat), (1 : Nat))] → p.1 ≤ 2 ∧ p.2 ≤ 2) ∧ 0 ≤ 2 ∧ 1 ≤ 2) ∧
      (∃ uf', applyUnions (UnionFind.init 2) [(0, 1)] = some uf' ∧
        ∃ ra ufa rb ufb, uf'.find 0 = some (ra, ufa) ∧ ufa.find 1 = some (rb, ufb) ∧
          (ra = rb ↔ JoinedPairs [(0, 1)] 0 1)) :=
  ⟨⟨by decide, by decide, by decide⟩,
    C3_union_find_connectivity 2 [(0, 1)] 0 1 (by decide) (by decide) (by decide)⟩

/-! ### Path compression along the visited chain -/

lemma pIter_fix {uf : UnionFind} {i : Nat} (h : nth uf.parent i = i) :
    ∀ k, pIter uf k i = i := by
  intro k
  induction k with
  | zero => rfl
  | succ k ih =>
    show pIter uf k (nth uf.parent i) = i
    rw [h]
    exact ih

lemma findAux_compress {uf : UnionFind} : ∀ {fuel i r uf1},
    UnionFind.findAux fuel uf i = some (r, uf1) →
    (∀ j, reaches uf i j → j ≠ r → nth uf1.parent j = r) ∧
    (∀ j, ¬ reaches uf i j → nth uf1.parent j = nth uf.parent j) := by
  intro fuel
  induction fuel with
  | zero => intro i r uf1 h; simp [UnionFind.findAux] at h
  | succ fuel ih =>
    intro i r uf1 h
    simp only [UnionFind.findAux] at h
    by_cases hi : i < uf.parent.length
    · simp only [if_pos hi] at h
      by_cases hr : nth uf.parent i = i
      · simp only [if_pos hr, Option.some.injEq, Prod.mk.injEq] at h
        obtain ⟨rfl, rfl⟩ := h
        constructor
        · intro j hj hne
          obtain ⟨k, hk⟩ := hj
          rw [pIter_fix hr k] at hk
          exfalso
          omega
        · intro j _
          rfl
      · simp only [if_neg hr] at h
        split at h
        · simp at h
        · rename_i r0 ufm hm
          simp only [Option.some.injEq, Prod.mk.injEq] at h
          obtain ⟨rfl, rfl⟩ := h
          have hilen : i < ufm.parent.length := by
            rw [(findAux_state hm).1]
            exact hi
          constructor
          · intro j hj hne
            by_cases hji : j = i
            · subst hji
              exact nth_set_self r0 hilen
            · obtain ⟨k, hk⟩ := hj
              cases k with
              | zero =>
                exfalso
                have hik : i = j := hk
                omega
              | succ k =>
                have hrp : reaches uf (nth uf.parent i) j := ⟨k, hk⟩
                have := (ih hm).1 j hrp hne
                show nth (ufm.parent.set i r0) j = r0
                rw [nth_set_ne r0 (fun he => hji he.symm)]
                exact this
          · intro j hnj
            have hji : j ≠ i := fun he => hnj (he ▸ ⟨0, rfl⟩)
            have hnp : ¬ reaches uf (nth uf.parent i) j := by
              rintro ⟨k, hk⟩
              exact hnj ⟨k + 1, hk⟩
            show nth (ufm.parent.set i r0) j = nth uf.parent j
            rw [nth_set_ne r0 (fun he => hji he.symm)]
            exact (ih hm).2 j hnp
    · simp [hi] at h

/-- C5: on every reachable union-find state, `find(x)` for `x` in `[0, n]`
terminates and returns a representative `r` with `parent[r] = r`, repointing
every node visited during the search (the parent chain of `x`) directly to
`r`, touching no other parent entry and no rank. -/
theorem C5_find_terminates_and_compresses (n : Nat) (uf : UnionFind) (x : Nat)
    (hre : Reachable n uf) (hx : x ≤ n) :
    ∃ r uf', uf.find x = some (r, uf') ∧
      nth uf.parent r = r ∧ nth uf'.parent r = r ∧
      (∀ j, reaches uf x j → j ≠ r → nth uf'.parent j = r) ∧
      (∀ j, ¬ reaches uf x j → nth uf'.parent j = nth uf.parent j) ∧
      uf'.rank = uf.rank := by
  obtain ⟨inv, hlen⟩ := reachable_inv hre
  obtain ⟨r, uf', hfind, hroot⟩ := find_succeeds inv (show x < uf.parent.length by omega)
  have hspec := rootAux_spec hroot
  have hchar := findAux_parent_char inv hfind
  have hcomp := findAux_compress hfind
  refine ⟨r, uf', hfind, hspec.2, ?_, hcomp.1, hcomp.2, (findAux_state hfind).2⟩
  rcases hchar r with hc | ⟨_, hc⟩
  · rw [hc]
    exact hspec.2
  · exact hc

theorem C5_witness :
    (Reachable 1 (UnionFind.init 1) ∧ 0 ≤ 1) ∧
      (∃ r uf', (UnionFind.init 1).find 0 = some (r, uf') ∧
        nth (UnionFind.init 1).parent r = r ∧ nth uf'.parent r = r ∧
        (∀ j, reaches (UnionFind.init 1) 0 j → j ≠ r → nth uf'.parent j = r) ∧
        (∀ j, ¬ reaches (UnionFind.init 1) 0 j →
          nth uf'.parent j = nth (UnionFind.init 1).parent j) ∧
        uf'.rank = (UnionFind.init 1).rank) :=
  ⟨⟨Reachable.init, by decide⟩,
    C5_find_terminates_and_compresses 1 (UnionFind.init 1) 0 Reachable.init (by decide)⟩

/-- C6: when `union(x, y)` merges two distinct sets, the root of smaller
rank is attached under the root of larger rank with no rank change; on a
rank tie, `x`'s root becomes the parent and its rank increases by exactly
one (all other ranks unchanged, as the rank list is updated at that single
index). -/
theorem C6_union_by_rank (n : Nat) (uf uf' : UnionFind) (x y : Nat)
    (hre : Reachable n uf) (hx : x ≤ n) (hy : y ≤ n)
    (huni : uf.union x y = some (true, uf')) :
    ∃ rx ry, uf.root x = some rx ∧ uf.root y = some ry ∧ rx ≠ ry ∧
      (nth uf.rank rx < nth uf.rank ry →
        nth uf'.parent rx = ry ∧ uf'.rank = uf.rank) ∧
      (nth uf.rank ry < nth uf.rank rx →
        nth uf'.parent ry = rx ∧ uf'.rank = uf.rank) ∧
      (nth uf.rank rx = nth uf.rank ry →
        nth uf'.parent ry = rx ∧ uf'.rank = uf.rank.set rx (nth uf.rank rx + 1)) := by
  obtain ⟨inv, hlen⟩ := reachable_inv hre
  obtain ⟨b', uf'', heq, _, _, rx, ry, hrx, hry, hcase⟩ := union_spec inv
    (show x < uf.parent.length by omega) (show y < uf.parent.length by omega)
  rw [huni] at heq
  simp only [Option.some.injEq, Prod.mk.injEq] at heq
  obtain ⟨hb, rfl⟩ := heq
  rcases hcase with ⟨hb2, _⟩ | ⟨_, hrr, ra, rb, hswap, hparb, hrkeq, hrkne, _⟩
  · rw [← hb] at hb2
    exact absurd hb2 (by simp)
  · refine ⟨rx, ry, hrx, hry, hrr, ?_, ?_, ?_⟩
    · intro hlt
      rcases hswap with ⟨_, ha, hb3⟩ | ⟨hcmp, _, _⟩
      · subst ha
        subst hb3
        exact ⟨hparb, hrkne (by omega)⟩
      · exact absurd hlt hcmp
    · intro hlt
      rcases hswap with ⟨hcmp, _, _⟩ | ⟨_, ha, hb3⟩
      · omega
      · subst ha
        subst hb3
        exact ⟨hparb, hrkne (by omega)⟩
    · intro heq2
      rcases hswap with ⟨hcmp, _, _⟩ | ⟨_, ha, hb3⟩
      · omega
      · subst ha
        subst hb3
        exact ⟨hparb, hrkeq (by omega)⟩

theorem C6_witness :
    (Reachable 1 (UnionFind.init 1) ∧ 0 ≤ 1 ∧ 1 ≤ 1 ∧
      (UnionFind.init 1).union 0 1 = some (true, ⟨[0, 0], [1, 0]⟩)) ∧
      (∃ rx ry, (UnionFind.init 1).root 0 = some rx ∧
        (UnionFind.init 1).root 1 = some ry ∧ rx ≠ ry ∧
        (nth (UnionFind.init 1).rank rx < nth (UnionFind.init 1).rank ry →
          nth (⟨[0, 0], [1, 0]⟩ : UnionFind).parent rx = ry ∧
          (⟨[0, 0], [1, 0]⟩ : UnionFind).rank = (UnionFind.init 1).rank) ∧
        (nth (UnionFind.init 1).rank ry < nth (UnionFind.init 1).rank rx →
          nth (⟨[0, 0], [1, 0]⟩ : UnionFind).parent ry = rx ∧
          (⟨[0, 0], [1, 0]⟩ : UnionFind).rank = (UnionFind.init 1).rank) ∧
        (nth (UnionFind.init 1).rank rx = nth (UnionFind.init 1).rank ry →
          nth (⟨[0, 0], [1, 0]⟩ : UnionFind).parent ry = rx ∧
          (⟨[0, 0], [1, 0]⟩ : UnionFind).rank =
            (UnionFind.init 1).rank.set rx (nth (UnionFind.init 1).rank rx + 1))) :=
  ⟨⟨Reachable.init, by decide, by decide, by decide⟩,
    C6_union_by_rank 1 (UnionFind.init 1) ⟨[0, 0], [1, 0]⟩ 0 1 Reachable.init
      (by decide) (by decide) (by decide)⟩

/-- C4: `union(u, v)` returns `True` exactly when `u` and `v` lay in
different sets beforehand, and in Kruskal's loop an edge `(u, v, w)` adds
`w` to the total weight and bumps the edge count exactly when that call
returns `True`, being discarded otherwise. -/
theorem C4_union_signal_drives_kruskal (n : Nat) (uf : UnionFind) (u v : Nat)
    (hre : Reachable n uf) (hu : u ≤ n) (hv : v ≤ n) :
    ∃ b uf', uf.union u v = some (b, uf') ∧ (b = true ↔ ¬ sameSet uf u v) ∧
      ∀ w rest mst_weight edges_count,
        kruskalLoop uf ((u, v, w) :: rest) mst_weight edges_count =
          kruskalLoop uf' rest (if b then mst_weight + w else mst_weight)
            (if b then edges_count + 1 else edges_count) := by
  obtain ⟨inv, hlen⟩ := reachable_inv hre
  obtain ⟨b, uf', huni, _, _, _⟩ := union_spec inv
    (show u < uf.parent.length by omega) (show v < uf.parent.length by omega)
  have hiff := (union_sameSet inv (show u < uf.parent.length by omega)
    (show v < uf.parent.length by omega) huni).1
  refine ⟨b, uf', huni, hiff, ?_⟩
  intro w rest mst_weight edges_count
  cases b with
  | false => simp [kruskalLoop, huni]
  | true => simp [kruskalLoop, huni]

theorem C4_witness :
    (Reachable 1 (UnionFind.init 1) ∧ 0 ≤ 1 ∧ 1 ≤ 1) ∧
      (∃ b uf', (UnionFind.init 1).union 0 1 = some (b, uf') ∧
        (b = true ↔ ¬ sameSet (UnionFind.init 1) 0 1) ∧
        ∀ w rest mst_weight edges_count,
          kruskalLoop (UnionFind.init 1) ((0, 1, w) :: rest) mst_weight edges_count =
            kruskalLoop uf' rest (if b then mst_weight + w else mst_weight)
              (if b then edges_count + 1 else edges_count)) :=
  ⟨⟨Reachable.init, by decide, by decide⟩,
    C4_union_signal_drives_kruskal 1 (UnionFind.init 1) 0 1 Reachable.init
      (by decide) (by decide)⟩

/-! ### Kruskal never goes out of bounds -/

lemma kruskalLoop_isSome (n : Nat) : ∀ (edges : List Edge) (uf : UnionFind)
    (mst_weight edges_count : Nat), UFInv uf → uf.parent.length = n + 1 →
    (∀ e, e ∈ edges → e.1 ≤ n ∧ e.2.1 ≤ n) →
    (kruskalLoop uf edges mst_weight edges_count).isSome := by
  intro edges
  induction edges with
  | nil => intro uf s c _ _ _; simp [kruskalLoop]
  | cons e rest ih =>
    obtain ⟨u, v, w⟩ := e
    intro uf s c inv hlen hok
    have hu : u ≤ n := (hok (u, v, w) (List.mem_cons_self ..)).1
    have hv : v ≤ n := (hok (u, v, w) (List.mem_cons_self ..)).2
    obtain ⟨b, uf', huni, inv', hlen', _⟩ := union_spec inv
      (show u < uf.parent.length by omega) (show v < uf.parent.length by omega)
    have hok' : ∀ e, e ∈ rest → e.1 ≤ n ∧ e.2.1 ≤ n :=
      fun e he => hok e (List.mem_cons_of_mem _ he)
    cases b with
    | false =>
      simp only [kruskalLoop, huni]
      exact ih uf' s c inv' (by rw [hlen', hlen]) hok'
    | true =>
      simp only [kruskalLoop, huni]
      exact ih uf' (s + w) (c + 1) inv' (by rw [hlen', hlen]) hok'

/-- C10: when every edge endpoint lies in `[1, num_nodes]`, a full
`run_kruskal` execution performs no out-of-range access on the parent and
rank lists of size `num_nodes + 1` (in this model, an out-of-range access
surfaces as `none`, so the run returns `some`). -/
theorem C10_kruskal_in_bounds (n : Nat) (edges : List Edge)
    (hok : endpointsOK n edges) : (run_kruskal n edges).isSome := by
  have h := kruskalLoop_isSome n (List.insertionSort edgeLE edges) (UnionFind.init n) 0 0
    (init_inv n) (init_parent_length n) (fun e he => by
      have hmem : e ∈ edges := (List.perm_insertionSort edgeLE edges).mem_iff.mp he
      obtain ⟨_, h1, _, h2⟩ := hok e hmem
      exact ⟨h1, h2⟩)
  rw [run_kruskal]
  rcases ho : kruskalLoop (UnionFind.init n) (List.insertionSort edgeLE edges) 0 0 with _ | p
  · rw [ho] at h
    simp at h
  · simp [ho]

theorem C10_witness :
    endpointsOK 3 [(1, 2, 1), (2, 3, 2), (1, 3, 3)] ∧
      (run_kruskal 3 [(1, 2, 1), (2, 3, 2), (1, 3, 3)]).isSome :=
  ⟨by intro e he; fin_cases he <;> decide,
    C10_kruskal_in_bounds 3 [(1, 2, 1), (2, 3, 2), (1, 3, 3)]
      (by intro e he; fin_cases he <;> decide)⟩

/-- C9: on the triangle graph with edges (1,2,1), (2,3,2), (1,3,3) and the
adjacency structure holding both directions of each edge, Kruskal returns
total weight 3 and Prim (starting at vertex 1) returns total weight 3. -/
theorem C9_triangle_weight_3 :
    run_kruskal 3 [(1, 2, 1), (2, 3, 2), (1, 3, 3)] = some 3 ∧
      run_prim 3 [(1, [(1, 2), (3, 3)]), (2, [(1, 1), (2, 3)]), (3, [(2, 2), (3, 1)])] =
        some (3, [(1, [(1, 2), (3, 3)]), (2, [(1, 1), (2, 3)]), (3, [(2, 2), (3, 1)])]) := by
  constructor
  · decide
  · decide

/-- C7: on an empty graph both algorithms return weight 0 without error:
`run_kruskal` returns 0 for an empty edge list at any `num_nodes`, and
`run_prim` returns 0 both on an empty adjacency structure at any
`num_nodes` and at `num_nodes = 0` on any adjacency structure, despite the
seed entry (0, 1) in its queue. -/
theorem C7_empty_graph_zero (n : Nat) (adj : Adj) :
    run_kruskal n [] = some 0 ∧ (∃ adj', run_prim n [] = some (0, adj')) ∧
      run_prim 0 adj = some (0, adj) := by
  refine ⟨rfl, ?_, rfl⟩
  cases n with
  | zero => exact ⟨[], rfl⟩
  | succ m => exact ⟨[(1, [])], rfl⟩

/-! ### What Prim's run does to the adjacency structure -/

lemma alookup_append_some {adj : Adj} {x : Nat} {l : List (Nat × Nat)}
    (h : alookup adj x = some l) (tail : Adj) : alookup (adj ++ tail) x = some l := by
  induction adj with
  | nil => simp [alookup] at h
  | cons kv rest ih =>
    obtain ⟨k, v⟩ := kv
    simp only [alookup] at h
    by_cases hk : k = x
    · simp only [List.cons_append, alookup, if_pos hk]
      rw [if_pos hk] at h
      exact h
    · rw [if_neg hk] at h
      simp only [List.cons_append, alookup, if_neg hk]
      exact ih h

lemma alookup_append_none {adj : Adj} {x : Nat} (h : alookup adj x = none) (tail : Adj) :
    alookup (adj ++ tail) x = alookup tail x := by
  induction adj with
  | nil => simp [alookup]
  | cons kv rest ih =>
    obtain ⟨k, v⟩ := kv
    simp only [alookup] at h
    by_cases hk : k = x
    · rw [if_pos hk] at h
      simp at h
    · rw [if_neg hk] at h
      simp only [List.cons_append, alookup, if_neg hk]
      exact ih h

lemma AdjView_append_empty (adj : Adj) (u x : Nat) :
    AdjView (adj ++ [(u, [])]) x = AdjView adj x := by
  unfold AdjView
  cases h : alookup adj x with
  | none =>
    rw [alookup_append_none h]
    by_cases hux : u = x
    · simp [alookup, hux]
    · simp [alookup, hux]
  | some l =>
    rw [alookup_append_some h]

lemma dictGet_cases (adj : Adj) (u : Nat) :
    (dictGet adj u).2 = adj ∨ (dictGet adj u).2 = adj ++ [(u, [])] := by
  unfold dictGet
  cases h : alookup adj u with
  | none => exact Or.inr rfl
  | some l => exact Or.inl rfl

lemma primLoop_adj_extends : ∀ (fuel n : Nat) (pq : List (Nat × Nat))
    (visited : List Nat) (s : Nat) (adj : Adj) res,
    primLoop fuel n pq visited s adj = some res →
    ∃ extra, res.2.2.2 = adj ++ extra ∧ (∀ kv, kv ∈ extra → kv.2 = ([] : List (Nat × Nat))) := by
  intro fuel
  induction fuel with
  | zero => intro n pq visited s adj res h; simp [primLoop] at h
  | succ fuel ih =>
    intro n pq visited s adj res h
    match pq, h with
    | [], h =>
      simp only [primLoop, Option.some.injEq] at h
      subst h
      exact ⟨[], by simp, by simp⟩
    | (w, u) :: rest, h =>
      simp only [primLoop] at h
      by_cases hn : n ≤ visited.length
      · rw [if_pos hn] at h
        injection h with h
        subst h
        exact ⟨[], by simp, by simp⟩
      · rw [if_neg hn] at h
        by_cases hu : u ∈ visited
        · rw [if_pos hu] at h
          exact ih n rest visited s adj res h
        · rw [if_neg hu] at h
          rcases dictGet_cases adj u with hd | hd
          · rw [hd] at h
            exact ih _ _ _ _ _ res h
          · rw [hd] at h
            obtain ⟨extra, he, hemp⟩ := ih _ _ _ _ _ res h
            refine ⟨(u, []) :: extra, ?_, ?_⟩
            · rw [he, List.append_assoc]
              rfl
            · intro kv hkv
              rcases List.mem_cons.mp hkv with rfl | hkv
              · rfl
              · exact hemp kv hkv

/-- C8 counterexample: on `num_nodes = 1` with an empty adjacency mapping,
`run_prim` returns with the adjacency structure changed to `[(1, [])]` —
the `defaultdict` read `adj[1]` inserted key 1 — so the run does mutate the
adjacency structure it received, contradicting the claim. -/
theorem C8_counterexample :
    run_prim 1 [] = some (0, [(1, [])]) ∧ ([(1, [])] : Adj) ≠ [] := by
  constructor
  · rfl
  · simp

/-- C8 amended: `run_kruskal` sorts a fresh copy of the edge list, and
`run_prim` never changes the list stored under any existing key nor any
lookup result, but it may append empty-list entries for visited vertices
absent from the mapping (the `defaultdict` key-insertion side effect): the
final adjacency structure is the initial one followed by empty entries,
with every key's view unchanged. -/
theorem C8_prim_extends_only (n : Nat) (adj : Adj) (w : Nat) (adj' : Adj)
    (h : run_prim n adj = some (w, adj')) :
    (∃ extra, adj' = adj ++ extra ∧ (∀ kv, kv ∈ extra → kv.2 = ([] : List (Nat × Nat)))) ∧
      ∀ x, AdjView adj' x = AdjView adj x := by
  rw [run_prim] at h
  rcases ho : primLoop (adjSize adj + 2) n [(0, 1)] [] 0 adj with _ | res
  · rw [ho] at h
    simp at h
  · rw [ho] at h
    simp only [Option.map_some', Option.some.injEq] at h
    have h2 : res.2.2.2 = adj' := congrArg Prod.snd h
    obtain ⟨extra, he, hemp⟩ := primLoop_adj_extends _ _ _ _ _ _ _ ho
    have hadj' : adj' = adj ++ extra := by
      rw [← h2, he]
    refine ⟨⟨extra, hadj', hemp⟩, ?_⟩
    intro x
    rw [hadj']
    clear hadj' he h ho
    induction extra using List.reverseRecOn with
    | nil => simp
    | append_singleton front kv ihx =>
      obtain ⟨u, l⟩ := kv
      have hl : l = [] := hemp (u, l) (by simp)
      subst hl
      rw [← List.append_assoc]
      rw [AdjView_append_empty (adj ++ front) u x]
      exact ihx (fun kv hkv => hemp kv (by simp [hkv]))

theorem C8_witness :
    run_prim 1 [] = some (0, [(1, [])]) ∧
      ((∃ extra, [(1, [])] = [] ++ extra ∧
          (∀ kv, kv ∈ extra → kv.2 = ([] : List (Nat × Nat)))) ∧
        ∀ x, AdjView [(1, [])] x = AdjView [] x) :=
  ⟨rfl, C8_prim_extends_only 1 [] 0 [(1, [])] rfl⟩

/-! ### Walks and connectivity -/

lemma symcl_symm {r : Nat → Nat → Prop} {a b : Nat} (h : symcl r a b) : symcl r b a := by
  rcases h with h | h
  · exact Or.inr h
  · exact Or.inl h

lemma isWalk_nil {r : Nat → Nat → Prop} (x : Nat) : isWalk r x [] x := by
  constructor
  · simp
  · rfl

lemma isWalk_nil_eq {r : Nat → Nat → Prop} {x y : Nat} (h : isWalk r x [] y) : x = y := by
  obtain ⟨_, h2⟩ := h
  simp only [List.getLast?_singleton, Option.some.injEq] at h2
  exact h2

lemma isWalk_cons_elim {r : Nat → Nat → Prop} {x b y : Nat} {p : List Nat}
    (h : isWalk r x (b :: p) y) : symcl r x b ∧ isWalk r b p y := by
  obtain ⟨h1, h2⟩ := h
  rw [List.chain'_cons] at h1
  rw [List.getLast?_cons_cons] at h2
  exact ⟨h1.1, h1.2, h2⟩

lemma isWalk_cons_intro {r : Nat → Nat → Prop} {x b y : Nat} {p : List Nat}
    (hs : symcl r x b) (h : isWalk r b p y) : isWalk r x (b :: p) y := by
  obtain ⟨h1, h2⟩ := h
  constructor
  · rw [List.chain'_cons]
    exact ⟨hs, h1⟩
  · rw [List.getLast?_cons_cons]
    exact h2

lemma isWalk_append {r : Nat → Nat → Prop} : ∀ {p : List Nat} {x y z : Nat} {q : List Nat},
    isWalk r x p y → isWalk r y q z → isWalk r x (p ++ q) z := by
  intro p
  induction p with
  | nil =>
    intro x y z q h1 h2
    rw [isWalk_nil_eq h1]
    exact h2
  | cons b p ih =>
    intro x y z q h1 h2
    obtain ⟨hs, hw⟩ := isWalk_cons_elim h1
    exact isWalk_cons_intro hs (ih hw h2)

lemma isWalk_snoc {r : Nat → Nat → Prop} {x y z : Nat} {p : List Nat}
    (h : isWalk r x p y) (hs : symcl r y z) : isWalk r x (p ++ [z]) z :=
  isWalk_append h (isWalk_cons_intro hs (isWalk_nil z))

lemma isWalk_symm {r : Nat → Nat → Prop} : ∀ {p : List Nat} {x y : Nat},
    isWalk r x p y → ∃ q, isWalk r y q x := by
  intro p
  induction p with
  | nil =>
    intro x y h
    rw [isWalk_nil_eq h]
    exact ⟨[], isWalk_nil y⟩
  | cons b p ih =>
    intro x y h
    obtain ⟨hs, hw⟩ := isWalk_cons_elim h
    obtain ⟨q, hq⟩ := ih hw
    exact ⟨q ++ [x], isWalk_snoc hq (symcl_symm hs)⟩

lemma RST_iff_walk (r : Nat → Nat → Prop) (x y : Nat) :
    RST r x y ↔ ∃ p, isWalk r x p y := by
  constructor
  · intro h
    induction h with
    | base hab =>
      exact ⟨[_], isWalk_cons_intro (Or.inl hab) (isWalk_nil _)⟩
    | refl a => exact ⟨[], isWalk_nil a⟩
    | symm _ ih =>
      obtain ⟨p, hp⟩ := ih
      exact isWalk_symm hp
    | trans _ _ ih1 ih2 =>
      obtain ⟨p, hp⟩ := ih1
      obtain ⟨q, hq⟩ := ih2
      exact ⟨p ++ q, isWalk_append hp hq⟩
  · rintro ⟨p, hp⟩
    induction p generalizing x with
    | nil =>
      rw [isWalk_nil_eq hp]
      exact RST.refl y
    | cons b p ih =>
      obtain ⟨hs, hw⟩ := isWalk_cons_elim hp
      refine RST.trans ?_ (ih b hw)
      rcases hs with hs | hs
      · exact RST.base hs
      · exact RST.symm (RST.base hs)

lemma walk_nodup {r : Nat → Nat → Prop} : ∀ {p : List Nat} {x y : Nat},
    isWalk r x p y → ∃ q, isWalk r x q y ∧ (x :: q).Nodup := by
  intro p
  induction p with
  | nil =>
    intro x y h
    exact ⟨[], h, by simp⟩
  | cons b p ih =>
    intro x y h
    obtain ⟨hs, hw⟩ := isWalk_cons_elim h
    obtain ⟨q, hq, hnd⟩ := ih hw
    by_cases hx : x ∈ b :: q
    · obtain ⟨s, t, hst⟩ := List.append_of_mem hx
      refine ⟨t, ⟨?_, ?_⟩, ?_⟩
      · have := hq.1
        rw [hst] at this
        exact this.suffix (List.suffix_append s (x :: t))
      · have := hq.2
        rw [hst] at this
        rwa [List.getLast?_append_of_ne_nil s (List.cons_ne_nil x t)] at this
      · have : (x :: t).Sublist (s ++ x :: t) := (List.sublist_append_right s (x :: t))
        rw [hst] at hnd
        exact hnd.sublist this
    · exact ⟨b :: q, isWalk_cons_intro hs hq, List.nodup_cons.mpr ⟨hx, hnd⟩⟩

lemma walk_cross {r : Nat → Nat → Prop} : ∀ {p : List Nat} {x y : Nat},
    isWalk r x p y → ∀ (A : Nat → Prop), A x → ¬ A y →
    ∃ s a b t, x :: p = s ++ a :: b :: t ∧ A a ∧ ¬ A b := by
  intro p
  induction p with
  | nil =>
    intro x y h A hx hy
    rw [isWalk_nil_eq h] at hx
    exact absurd hx hy
  | cons b p ih =>
    intro x y h A hx hy
    obtain ⟨hs, hw⟩ := isWalk_cons_elim h
    by_cases hb : A b
    · obtain ⟨s, a, b2, t, heq, ha2, hb2⟩ := ih hw A hb hy
      exact ⟨x :: s, a, b2, t, by rw [List.cons_append, ← heq], ha2, hb2⟩
    · exact ⟨[], x, b, p, rfl, hx, hb⟩

lemma chain'_restrict {R : Nat → Nat → Prop} (S : Nat → Nat → Prop) : ∀ (l : List Nat),
    List.Chain' R l → (∀ c d, c ∈ l → d ∈ l → R c d → S c d) → List.Chain' S l := by
  intro l
  induction l with
  | nil => intro _ _; simp
  | cons c l ih =>
    intro hch hcd
    cases l with
    | nil => simp
    | cons d l =>
      rw [List.chain'_cons] at hch ⊢
      refine ⟨hcd c d (by simp) (by simp) hch.1, ?_⟩
      exact ih hch.2 (fun c' d' hc' hd' => hcd c' d' (by simp [hc']) (by simp [hd']))

lemma walk_decompose {r : Nat → Nat → Prop} {x y : Nat} {p s t : List Nat} {a b : Nat}
    (hw : isWalk r x p y) (heq : x :: p = s ++ a :: b :: t) :
    symcl r a b ∧
    (∃ pre, s ++ [a] = x :: pre ∧ isWalk r x pre a) ∧
    isWalk r b t y := by
  obtain ⟨hch, hlast⟩ := hw
  rw [heq] at hch hlast
  have hsplit := (List.chain'_split.mp hch)
  have hstep : symcl r a b := by
    rw [List.chain'_cons] at hsplit
    exact hsplit.2.1
  have hchsuffix : List.Chain' (symcl r) (b :: t) := by
    have := hsplit.2
    rw [List.chain'_cons] at this
    exact this.2
  have hlast2 : (b :: t).getLast? = some y := by
    rw [List.getLast?_append_of_ne_nil s (List.cons_ne_nil a (b :: t))] at hlast
    rw [List.getLast?_cons_cons] at hlast
    exact hlast
  refine ⟨hstep, ?_, hchsuffix, hlast2⟩
  have hchpre : List.Chain' (symcl r) (s ++ [a]) := hsplit.1
  cases s with
  | nil =>
    have hxa : a = x := by
      have : x :: p = a :: b :: t := heq
      injection this with h1 _
      exact h1.symm
    subst hxa
    exact ⟨[], rfl, isWalk_nil a⟩
  | cons x0 s =>
    have hx0 : x0 = x := by
      have : x :: p = x0 :: (s ++ a :: b :: t) := by rw [heq]; rfl
      injection this with h1 _
      exact h1.symm
    subst hx0
    refine ⟨s ++ [a], rfl, ?_, ?_⟩
    · have : x0 :: (s ++ [a]) = (x0 :: s) ++ [a] := rfl
      rw [this]
      exact hchpre
    · show ((x0 :: s) ++ [a]).getLast? = some a
      rw [List.getLast?_concat]

lemma connP_mono {P Q : Edge → Prop} (h : ∀ e, P e → Q e) {x y : Nat}
    (hc : connP P x y) : connP Q x y :=
  RST.mono (fun _ _ hab => Exists.imp (fun _ hw => h _ hw) hab) hc

lemma connP_base {P : Edge → Prop} {u v w : Nat} (h : P (u, v, w)) : connP P u v :=
  RST.base ⟨w, h⟩

lemma connP_replace {P Q : Edge → Prop} (h : ∀ e, P e → connP Q e.1 e.2.1) {x y : Nat}
    (hc : connP P x y) : connP Q x y := by
  induction hc with
  | base hab =>
    obtain ⟨w, hw⟩ := hab
    exact h _ hw
  | refl a => exact RST.refl a
  | symm _ ih => exact RST.symm ih
  | trans _ _ ih1 ih2 => exact RST.trans ih1 ih2

lemma connP_respects {P : Edge → Prop} (A : Nat → Prop)
    (hA : ∀ e, P e → (A e.1 ↔ A e.2.1)) {x y : Nat} (hc : connP P x y) :
    A x ↔ A y := by
  induction hc with
  | base hab =>
    obtain ⟨w, hw⟩ := hab
    exact hA _ hw
  | refl a => exact Iff.rfl
  | symm _ ih => exact ih.symm
  | trans _ _ ih1 ih2 => exact ih1.trans ih2

lemma triple_eq_parts {c d w a b wf : Nat} (h : (c, d, w) = ((a, b, wf) : Edge)) :
    c = a ∧ d = b ∧ w = wf := by
  injection h with h1 h2
  injection h2 with h2a h2b
  exact ⟨h1, h2a, h2b⟩

lemma symcl_erase {M : Multiset Edge} {f : Edge} {c d : Nat}
    (hcd : symcl (erel (fun e => e ∈ M)) c d)
    (hne : ∀ w', ((c, d, w') : Edge) ≠ f ∧ ((d, c, w') : Edge) ≠ f) :
    symcl (erel (fun e => e ∈ M.erase f)) c d := by
  rcases hcd with ⟨w', hw'⟩ | ⟨w', hw'⟩
  · exact Or.inl ⟨w', (Multiset.mem_erase_of_ne (hne w').1).mpr hw'⟩
  · exact Or.inr ⟨w', (Multiset.mem_erase_of_ne (hne w').2).mpr hw'⟩

lemma exchange_edge {M : Multiset Edge} {u v : Nat} (A : Nat → Prop)
    (hAu : A u) (hAv : ¬ A v) (hconn : mconn M u v) :
    ∃ f : Edge, f ∈ M ∧
      ∃ c d, ((c = f.1 ∧ d = f.2.1) ∨ (c = f.2.1 ∧ d = f.1)) ∧ A c ∧ ¬ A d ∧
        mconn (M.erase f) u c ∧ mconn (M.erase f) d v := by
  obtain ⟨p, hp⟩ := (RST_iff_walk (erel (fun e => e ∈ M)) u v).mp hconn
  obtain ⟨q, hq, hnd⟩ := walk_nodup hp
  obtain ⟨s, a', b', t, heq, hA1, hA2⟩ := walk_cross hq A hAu hAv
  obtain ⟨hstep, ⟨pre, hpre_eq, hpre⟩, hsuf⟩ := walk_decompose hq heq
  have hnd2 : (s ++ a' :: b' :: t).Nodup := heq ▸ hnd
  have hbs : b' ∉ s ++ [a'] := by
    rw [List.nodup_append] at hnd2
    intro hmem
    rcases List.mem_append.mp hmem with hmem | hmem
    · exact hnd2.2.2 hmem (by simp)
    · have hab : a' = b' := by
        simp at hmem
        exact hmem.symm
      have h2 := hnd2.2.1
      rw [List.nodup_cons] at h2
      exact h2.1 (by simp [hab])
  have has : a' ∉ b' :: t := by
    rw [List.nodup_append] at hnd2
    have h2 := hnd2.2.1
    rw [List.nodup_cons] at h2
    exact h2.1
  have hprefix_walk : ∀ f : Edge,
      (∀ c d, c ∈ s ++ [a'] → d ∈ s ++ [a'] →
        (∀ w', ((c, d, w') : Edge) ≠ f ∧ ((d, c, w') : Edge) ≠ f)) →
      mconn (M.erase f) u a' := by
    intro f havoid
    refine (RST_iff_walk _ u a').mpr ⟨pre, ?_, hpre.2⟩
    have hch : List.Chain' (symcl (erel (fun e => e ∈ M))) (s ++ [a']) := by
      rw [hpre_eq]
      exact hpre.1
    have hres := chain'_restrict (symcl (erel (fun e => e ∈ M.erase f))) (s ++ [a']) hch
      (fun c d hc hd hcd => symcl_erase hcd (havoid c d hc hd))
    rw [hpre_eq] at hres
    exact hres
  have hsuffix_walk : ∀ f : Edge,
      (∀ c d, c ∈ b' :: t → d ∈ b' :: t →
        (∀ w', ((c, d, w') : Edge) ≠ f ∧ ((d, c, w') : Edge) ≠ f)) →
      mconn (M.erase f) b' v := by
    intro f havoid
    refine (RST_iff_walk _ b' v).mpr ⟨t, ?_, hsuf.2⟩
    exact chain'_restrict (symcl (erel (fun e => e ∈ M.erase f))) (b' :: t) hsuf.1
      (fun c d hc hd hcd => symcl_erase hcd (havoid c d hc hd))
  rcases hstep with ⟨wf, hf⟩ | ⟨wf, hf⟩
  · refine ⟨(a', b', wf), hf, a', b', Or.inl ⟨rfl, rfl⟩, hA1, hA2, ?_, ?_⟩
    · refine hprefix_walk (a', b', wf) ?_
      intro c d hc hd w'
      constructor
      · intro he
        obtain ⟨_, h2, _⟩ := triple_eq_parts he
        exact hbs (h2 ▸ hd)
      · intro he
        obtain ⟨_, h2, _⟩ := triple_eq_parts he
        exact hbs (h2 ▸ hc)
    · refine hsuffix_walk (a', b', wf) ?_
      intro c d hc hd w'
      constructor
      · intro he
        obtain ⟨h1, _, _⟩ := triple_eq_parts he
        exact has (h1 ▸ hc)
      · intro he
        obtain ⟨h1, _, _⟩ := triple_eq_parts he
        exact has (h1 ▸ hd)
  · refine ⟨(b', a', wf), hf, a', b', Or.inr ⟨rfl, rfl⟩, hA1, hA2, ?_, ?_⟩
    · refine hprefix_walk (b', a', wf) ?_
      intro c d hc hd w'
      constructor
      · intro he
        obtain ⟨h1, _, _⟩ := triple_eq_parts he
        exact hbs (h1 ▸ hc)
      · intro he
        obtain ⟨h1, _, _⟩ := triple_eq_parts he
        exact hbs (h1 ▸ hd)
    · refine hsuffix_walk (b', a', wf) ?_
      intro c d hc hd w'
      constructor
      · intro he
        obtain ⟨_, h2, _⟩ := triple_eq_parts he
        exact has (h2 ▸ hd)
      · intro he
        obtain ⟨_, h2, _⟩ := triple_eq_parts he
        exact has (h2 ▸ hc)

/-! ### Weight bookkeeping -/

lemma mwsum_cons (e : Edge) (s : Multiset Edge) : mwsum (e ::ₘ s) = e.2.2 + mwsum s := by
  simp [mwsum]

lemma mwsum_add (s t : Multiset Edge) : mwsum (s + t) = mwsum s + mwsum t := by
  simp [mwsum]

lemma mwsum_le_of_le {s t : Multiset Edge} (h : s ≤ t) : mwsum s ≤ mwsum t := by
  obtain ⟨u, rfl⟩ := Multiset.le_iff_exists_add.mp h
  rw [mwsum_add]
  omega

lemma mwsum_coe (L : List Edge) : mwsum (↑L : Multiset Edge) = wsum L := by
  simp [mwsum, wsum]

lemma wsum_toList (s : Multiset Edge) : wsum s.toList = mwsum s := by
  rw [← mwsum_coe, Multiset.coe_toList]

lemma mwsum_erase {s : Multiset Edge} {f : Edge} (h : f ∈ s) :
    mwsum s = f.2.2 + mwsum (s.erase f) := by
  conv_lhs => rw [← Multiset.cons_erase h]
  rw [mwsum_cons]

lemma le_of_le_cons_notMem {s t : Multiset Edge} {a : Edge} (h : s ≤ a ::ₘ t)
    (ha : a ∉ s) : s ≤ t := by
  rw [Multiset.le_iff_count] at h ⊢
  intro b
  have hb := h b
  by_cases hba : b = a
  · subst hba
    simp [Multiset.count_eq_zero_of_not_mem ha]
  · rwa [Multiset.count_cons_of_ne hba] at hb

/-! ### Adding one edge to a connectivity base -/

lemma connP_add_edge {P : Edge → Prop} {u v w : Nat} : ∀ {x y : Nat},
    connP (fun g => P g ∨ g = (u, v, w)) x y ↔
      (connP P x y ∨ (connP P x u ∧ connP P v y) ∨ (connP P x v ∧ connP P u y)) := by
  have symmP : ∀ {a b : Nat}, connP P a b → connP P b a := fun h => RST.symm h
  have transP : ∀ {a b c : Nat}, connP P a b → connP P b c → connP P a c :=
    fun h1 h2 => RST.trans h1 h2
  intro x y
  constructor
  · intro h
    induction h with
    | base hab =>
      rename_i a b
      obtain ⟨w', hw'⟩ := hab
      rcases hw' with hP | heq
      · exact Or.inl (RST.base ⟨w', hP⟩)
      · obtain ⟨h1, h2, _⟩ := triple_eq_parts heq
        subst h1
        subst h2
        exact Or.inr (Or.inl ⟨RST.refl a, RST.refl b⟩)
    | refl a => exact Or.inl (RST.refl a)
    | symm _ ih =>
      rcases ih with h | ⟨h1, h2⟩ | ⟨h1, h2⟩
      · exact Or.inl (symmP h)
      · exact Or.inr (Or.inr ⟨symmP h2, symmP h1⟩)
      · exact Or.inr (Or.inl ⟨symmP h2, symmP h1⟩)
    | trans _ _ ih1 ih2 =>
      rcases ih1 with h1 | ⟨h1a, h1b⟩ | ⟨h1a, h1b⟩ <;>
        rcases ih2 with h2 | ⟨h2a, h2b⟩ | ⟨h2a, h2b⟩
      · exact Or.inl (transP h1 h2)
      · exact Or.inr (Or.inl ⟨transP h1 h2a, h2b⟩)
      · exact Or.inr (Or.inr ⟨transP h1 h2a, h2b⟩)
      · exact Or.inr (Or.inl ⟨h1a, transP h1b h2⟩)
      · exact Or.inl (transP h1a (transP (symmP (transP h1b h2a)) h2b))
      · exact Or.inl (transP h1a h2b)
      · exact Or.inr (Or.inr ⟨h1a, transP h1b h2⟩)
      · exact Or.inl (transP h1a h2b)
      · exact Or.inl (transP h1a (transP (symmP (transP h1b h2a)) h2b))
  · have hmono : ∀ {a b : Nat}, connP P a b →
        connP (fun g => P g ∨ g = (u, v, w)) a b :=
      fun h => connP_mono (fun e he => Or.inl he) h
    have hedge : connP (fun g => P g ∨ g = (u, v, w)) u v :=
      RST.base ⟨w, Or.inr rfl⟩
    rintro (h | ⟨h1, h2⟩ | ⟨h1, h2⟩)
    · exact hmono h
    · exact RST.trans (hmono h1) (RST.trans hedge (hmono h2))
    · exact RST.trans (hmono h1) (RST.trans (RST.symm hedge) (hmono h2))

lemma mconn_congr {M N : Multiset Edge} (h : ∀ e : Edge, e ∈ M ↔ e ∈ N) {x y : Nat} :
    mconn M x y ↔ mconn N x y :=
  ⟨connP_mono (fun e he => (h e).mp he), connP_mono (fun e he => (h e).mpr he)⟩

lemma lconn_iff_mconn {L : List Edge} {x y : Nat} : lconn L x y ↔ mconn (↑L) x y :=
  ⟨connP_mono (fun e he => Multiset.mem_coe.mpr he),
    connP_mono (fun e he => Multiset.mem_coe.mp he)⟩

lemma mconn_cons_iff {TM : Multiset Edge} {u v w : Nat} {x y : Nat} :
    mconn (((u, v, w) : Edge) ::ₘ TM) x y ↔
      (mconn TM x y ∨ (mconn TM x u ∧ mconn TM v y) ∨ (mconn TM x v ∧ mconn TM u y)) := by
  have hiff : mconn (((u, v, w) : Edge) ::ₘ TM) x y ↔
      connP (fun g => g ∈ TM ∨ g = ((u, v, w) : Edge)) x y := by
    constructor
    · exact connP_mono (fun e he => by
        rcases Multiset.mem_cons.mp he with he | he
        · exact Or.inr he
        · exact Or.inl he)
    · exact connP_mono (fun e he => by
        rcases he with he | he
        · exact Multiset.mem_cons_of_mem he
        · rw [he]
          exact Multiset.mem_cons_self ..)
  rw [hiff]
  exact connP_add_edge

lemma kruskal_loop_opt (n : Nat) (E : List Edge) :
    ∀ (R : List Edge) (uf : UnionFind) (TM : Multiset Edge) (c : Nat),
    UFInv uf → uf.parent.length = n + 1 →
    (∀ e, e ∈ R → e ∈ E ∧ e.1 ≤ n ∧ e.2.1 ≤ n) →
    (∀ e, e ∈ TM → e ∈ E) →
    List.Sorted edgeLE R →
    (∀ x y, x ≤ n → y ≤ n → (sameSet uf x y ↔ mconn TM x y)) →
    (∃ Mr : Multiset Edge, (∀ f, f ∈ Mr → f ∈ E) ∧ Mr ≤ ↑R ∧
      (∀ a b, lconn E a b → mconn (TM + Mr) a b) ∧
      (∀ S, Spans E S → mwsum TM + mwsum Mr ≤ wsum S)) →
    ∃ w' c', kruskalLoop uf R (mwsum TM) c = some (w', c') ∧
      (∃ S, Spans E S ∧ wsum S = w') ∧ (∀ S, Spans E S → w' ≤ wsum S) := by
  intro R
  induction R with
  | nil =>
    intro uf TM c _ _ _ hTME _ hpart hOPT
    obtain ⟨Mr, _, hMrR, hspan, hmin⟩ := hOPT
    have hMr0 : Mr = 0 := Multiset.le_zero.mp (by simpa using hMrR)
    subst hMr0
    refine ⟨mwsum TM, c, rfl, ⟨TM.toList, ⟨?_, ?_⟩, wsum_toList TM⟩, ?_⟩
    · intro e he
      exact hTME e (Multiset.mem_toList.mp he)
    · intro a b hab
      have h1 := hspan a b hab
      rw [add_zero] at h1
      exact connP_mono (fun e he => Multiset.mem_toList.mpr he) h1
    · intro S hS
      have := hmin S hS
      simpa [mwsum] using this
  | cons e R' ih =>
    obtain ⟨u, v, w⟩ := e
    intro uf TM c inv hlen hR hTME hsort hpart hOPT
    obtain ⟨Mr, hMrE, hMrR, hspan, hmin⟩ := hOPT
    have heE : ((u, v, w) : Edge) ∈ E := (hR _ (List.mem_cons_self ..)).1
    have hu : u ≤ n := (hR _ (List.mem_cons_self ..)).2.1
    have hv : v ≤ n := (hR _ (List.mem_cons_self ..)).2.2
    have hulen : u < uf.parent.length := by omega
    have hvlen : v < uf.parent.length := by omega
    obtain ⟨b, uf', huni, inv', hlen', _⟩ := union_spec inv hulen hvlen
    obtain ⟨hbiff, hjoin⟩ := union_sameSet inv hulen hvlen huni
    have hR' : ∀ e, e ∈ R' → e ∈ E ∧ e.1 ≤ n ∧ e.2.1 ≤ n :=
      fun e he => hR e (List.mem_cons_of_mem _ he)
    have hsort' : List.Sorted edgeLE R' := (List.sorted_cons.mp hsort).2
    have hsort_head : ∀ g : Edge, g ∈ R' → w ≤ g.2.2 :=
      fun g hg => (List.sorted_cons.mp hsort).1 g hg
    have hMrR_cons : Mr ≤ ((u, v, w) : Edge) ::ₘ ↑R' := by
      rw [Multiset.cons_coe]
      exact hMrR
    by_cases hcase : sameSet uf u v
    · -- union returns False: edge discarded
      have hb : b = false := by
        cases b with
        | false => rfl
        | true => exact absurd hcase (hbiff.mp rfl)
      subst hb
      have hconnuv : mconn TM u v := (hpart u v hu hv).mp hcase
      simp only [kruskalLoop, huni]
      have hpart' : ∀ x y, x ≤ n → y ≤ n → (sameSet uf' x y ↔ mconn TM x y) := by
        intro x y hx hy
        rw [hjoin x y (by omega) (by omega)]
        constructor
        · rintro (h | ⟨h1, h2⟩ | ⟨h1, h2⟩)
          · exact (hpart x y hx hy).mp h
          · exact RST.trans ((hpart x u hx hu).mp h1)
              (RST.trans hconnuv ((hpart v y hv hy).mp h2))
          · exact RST.trans ((hpart x v hx hv).mp h1)
              (RST.trans (RST.symm hconnuv) ((hpart u y hu hy).mp h2))
        · intro h
          exact Or.inl ((hpart x y hx hy).mpr h)
      apply ih uf' TM c inv' (by rw [hlen', hlen]) hR' hTME hsort' hpart'
      -- transported optimality certificate
      refine ⟨Mr.filter (fun f => ¬ f = (u, v, w)), ?_, ?_, ?_, ?_⟩
      · intro f hf
        exact hMrE f (Multiset.mem_filter.mp hf).1
      · have h1 : Mr.filter (fun f => ¬ f = (u, v, w)) ≤ ((u, v, w) : Edge) ::ₘ ↑R' :=
          le_trans (Multiset.filter_le _ Mr) hMrR_cons
        refine le_of_le_cons_notMem h1 ?_
        intro hmem
        exact (Multiset.mem_filter.mp hmem).2 rfl
      · intro a b hab
        have hold := hspan a b hab
        refine connP_replace ?_ hold
        intro g hg
        rcases Multiset.mem_add.mp hg with hgT | hgMr
        · exact connP_base (Multiset.mem_add.mpr (Or.inl hgT))
        · by_cases hge : g = (u, v, w)
          · subst hge
            exact connP_mono (fun e he => Multiset.mem_add.mpr (Or.inl he)) hconnuv
          · exact connP_base (Multiset.mem_add.mpr
              (Or.inr (Multiset.mem_filter.mpr ⟨hgMr, hge⟩)))
      · intro S hS
        have h1 := hmin S hS
        have h2 : mwsum (Mr.filter (fun f => ¬ f = (u, v, w))) ≤ mwsum Mr :=
          mwsum_le_of_le (Multiset.filter_le _ Mr)
        omega
    · -- union returns True: edge kept
      have hb : b = true := hbiff.mpr hcase
      subst hb
      have hnconnuv : ¬ mconn TM u v := fun h => hcase ((hpart u v hu hv).mpr h)
      simp only [kruskalLoop, huni]
      have hpart' : ∀ x y, x ≤ n → y ≤ n →
          (sameSet uf' x y ↔ mconn (((u, v, w) : Edge) ::ₘ TM) x y) := by
        intro x y hx hy
        rw [hjoin x y (by omega) (by omega), mconn_cons_iff]
        constructor
        · rintro (h | ⟨h1, h2⟩ | ⟨h1, h2⟩)
          · exact Or.inl ((hpart x y hx hy).mp h)
          · exact Or.inr (Or.inl ⟨(hpart x u hx hu).mp h1, (hpart v y hv hy).mp h2⟩)
          · exact Or.inr (Or.inr ⟨(hpart x v hx hv).mp h1, (hpart u y hu hy).mp h2⟩)
        · rintro (h | ⟨h1, h2⟩ | ⟨h1, h2⟩)
          · exact Or.inl ((hpart x y hx hy).mpr h)
          · exact Or.inr (Or.inl ⟨(hpart x u hx hu).mpr h1, (hpart v y hv hy).mpr h2⟩)
          · exact Or.inr (Or.inr ⟨(hpart x v hx hv).mpr h1, (hpart u y hu hy).mpr h2⟩)
      have hTME' : ∀ e, e ∈ (((u, v, w) : Edge) ::ₘ TM) → e ∈ E := by
        intro e he
        rcases Multiset.mem_cons.mp he with he | he
        · rw [he]
          exact heE
        · exact hTME e he
      have hmw : mwsum TM + w = mwsum (((u, v, w) : Edge) ::ₘ TM) := by
        rw [mwsum_cons]
        have hred : ((u, v, w) : Edge).2.2 = w := rfl
        rw [hred]
        omega
      rw [hmw]
      apply ih uf' _ (c + 1) inv' (by rw [hlen', hlen]) hR' hTME' hsort' hpart'
      by_cases heMr : ((u, v, w) : Edge) ∈ Mr
      · -- the optimal certificate already contains this edge
        refine ⟨Mr.erase (u, v, w), ?_, ?_, ?_, ?_⟩
        · intro f hf
          exact hMrE f (Multiset.mem_of_le (Multiset.erase_le _ Mr) hf)
        · have h1 := Multiset.erase_le_erase ((u, v, w) : Edge) hMrR_cons
          rwa [Multiset.erase_cons_head] at h1
        · intro a b hab
          have hold := hspan a b hab
          have heq : ((u, v, w) : Edge) ::ₘ TM + Mr.erase (u, v, w) = TM + Mr := by
            rw [Multiset.cons_add, ← Multiset.add_cons, Multiset.cons_erase heMr]
          rw [heq]
          exact hold
        · intro S hS
          have h1 := hmin S hS
          have h2 : mwsum Mr = w + mwsum (Mr.erase (u, v, w)) := mwsum_erase heMr
          rw [mwsum_cons]
          have hred : ((u, v, w) : Edge).2.2 = w := rfl
          rw [hred]
          omega
      · -- exchange a crossing edge of the certificate for this edge
        have hMuv : mconn (TM + Mr) u v := hspan u v (connP_base heE)
        obtain ⟨f, hfM, c0, d0, hor, hAc, hAd, hconn_uc, hconn_dv⟩ :=
          exchange_edge (fun z => mconn TM u z) (RST.refl u) hnconnuv hMuv
        have hfTM : f ∉ TM := by
          intro hfT
          have hbase : mconn TM f.1 f.2.1 := RST.base ⟨f.2.2, hfT⟩
          have hiff : mconn TM u f.1 ↔ mconn TM u f.2.1 :=
            ⟨fun h => RST.trans h hbase, fun h => RST.trans h (RST.symm hbase)⟩
          rcases hor with ⟨hc, hd⟩ | ⟨hc, hd⟩
          · subst hc
            subst hd
            exact hAd (hiff.mp hAc)
          · subst hc
            subst hd
            exact hAd (hiff.mpr hAc)
        have hfMr : f ∈ Mr := by
          rcases Multiset.mem_add.mp hfM with h | h
          · exact absurd h hfTM
          · exact h
        have hfe : f ≠ ((u, v, w) : Edge) := fun he' => heMr (he' ▸ hfMr)
        have hwf : w ≤ f.2.2 := by
          have hfR : f ∈ ((u, v, w) : Edge) ::ₘ ↑R' :=
            Multiset.mem_of_le hMrR_cons hfMr
          rcases Multiset.mem_cons.mp hfR with h | h
          · exact absurd h hfe
          · exact hsort_head f (Multiset.mem_coe.mp h)
        have herase_add : (TM + Mr).erase f = TM + Mr.erase f :=
          Multiset.erase_add_right_pos TM hfMr
        refine ⟨Mr.erase f, ?_, ?_, ?_, ?_⟩
        · intro g hg
          exact hMrE g (Multiset.mem_of_le (Multiset.erase_le f Mr) hg)
        · have h1 := Multiset.erase_le_erase f hMrR_cons
          rw [Multiset.erase_cons_tail _ (fun he' => hfe he'.symm)] at h1
          have h2 : ((u, v, w) : Edge) ∉ Mr.erase f :=
            fun hmem => heMr (Multiset.mem_of_le (Multiset.erase_le f Mr) hmem)
          exact le_trans (le_of_le_cons_notMem h1 h2) (Multiset.erase_le f ↑R')
        · intro a b hab
          have hold := hspan a b hab
          have hM' : ((u, v, w) : Edge) ::ₘ TM + Mr.erase f =
              ((u, v, w) : Edge) ::ₘ ((TM + Mr).erase f) := by
            rw [herase_add, Multiset.cons_add]
          rw [hM']
          refine connP_replace ?_ hold
          intro g hg
          by_cases hgf : g = f
          · subst hgf
            have hlift : ∀ p q : Nat, mconn ((TM + Mr).erase g) p q →
                mconn (((u, v, w) : Edge) ::ₘ ((TM + Mr).erase g)) p q :=
              fun p q h => connP_mono (fun e he => Multiset.mem_cons_of_mem he) h
            have hedge : mconn (((u, v, w) : Edge) ::ₘ ((TM + Mr).erase g)) u v :=
              RST.base ⟨w, Multiset.mem_cons_self ..⟩
            have hcd : mconn (((u, v, w) : Edge) ::ₘ ((TM + Mr).erase g)) c0 d0 := by
              refine RST.trans (RST.symm (hlift _ _ hconn_uc)) ?_
              exact RST.trans hedge (RST.symm (hlift _ _ hconn_dv))
            rcases hor with ⟨hc, hd⟩ | ⟨hc, hd⟩
            · rw [hc] at hcd
              rw [hd] at hcd
              exact hcd
            · rw [hc] at hcd
              rw [hd] at hcd
              exact RST.symm hcd
          · exact connP_base (Multiset.mem_cons_of_mem
              ((Multiset.mem_erase_of_ne hgf).mpr hg))
        · intro S hS
          have h1 := hmin S hS
          have h2 : mwsum Mr = f.2.2 + mwsum (Mr.erase f) := mwsum_erase hfMr
          rw [mwsum_cons]
          have hred : ((u, v, w) : Edge).2.2 = w := rfl
          rw [hred]
          omega

lemma spans_self (E : List Edge) : Spans E E :=
  ⟨fun _ he => he, fun _ _ h => h⟩

lemma exists_min_spanning (E : List Edge) :
    ∃ S₀, Spans E S₀ ∧ ∀ S, Spans E S → wsum S₀ ≤ wsum S := by
  obtain ⟨m, hm, hmin⟩ := Nat.lt_wfRel.wf.has_min
    {w | ∃ S, Spans E S ∧ wsum S = w} ⟨wsum E, E, spans_self E, rfl⟩
  obtain ⟨S₀, hS₀, hw⟩ := hm
  refine ⟨S₀, hS₀, fun S hS => ?_⟩
  have h1 : m ≤ wsum S := Nat.le_of_not_lt (hmin (wsum S) ⟨S, hS, rfl⟩)
  omega

lemma nodup_coe_le {M : Multiset Edge} {L : List Edge} (hnd : M.Nodup)
    (hsub : ∀ g : Edge, g ∈ M → g ∈ L) : M ≤ ↑L := by
  rw [Multiset.le_iff_count]
  intro g
  by_cases hg : g ∈ M
  · have h1 : M.count g ≤ 1 := Multiset.nodup_iff_count_le_one.mp hnd g
    have h2 : 1 ≤ Multiset.count g ↑L := by
      rw [Multiset.one_le_count_iff_mem]
      exact Multiset.mem_coe.mpr (hsub g hg)
    omega
  · rw [Multiset.count_eq_zero_of_not_mem hg]
    omega

lemma mconn_zero {x y : Nat} : mconn 0 x y ↔ x = y := by
  constructor
  · intro h
    rcases RST_le_of_equiv (fun a b => a = b) (fun _ _ h => h.symm)
      (fun _ _ _ h1 h2 => h1.trans h2)
      (fun a b hab => by
        obtain ⟨w, hw⟩ := hab
        simp at hw) h with h | h
    · exact h
    · exact h
  · rintro rfl
    exact RST.refl x

lemma run_kruskal_msf (n : Nat) (edges : List Edge) (hok : endpointsOK n edges) :
    ∃ w', run_kruskal n edges = some w' ∧ IsMSFWeight edges w' := by
  obtain ⟨S₀, hS₀, hS₀min⟩ := exists_min_spanning edges
  have hperm := List.perm_insertionSort edgeLE edges
  have hsortmem : ∀ e : Edge, e ∈ List.insertionSort edgeLE edges ↔ e ∈ edges :=
    fun e => hperm.mem_iff
  have hddnd : (↑S₀.dedup : Multiset Edge).Nodup := by
    rw [Multiset.coe_nodup]
    exact List.nodup_dedup S₀
  have hMr0 : (↑S₀.dedup : Multiset Edge) ≤ ↑(List.insertionSort edgeLE edges) := by
    refine nodup_coe_le hddnd ?_
    intro g hg
    rw [hsortmem]
    exact hS₀.1 g (List.mem_dedup.mp (Multiset.mem_coe.mp hg))
  have hmain := kruskal_loop_opt n edges (List.insertionSort edgeLE edges)
    (UnionFind.init n) 0 0 (init_inv n) (init_parent_length n)
    (fun e he => ⟨(hsortmem e).mp he, by
      obtain ⟨_, h1, _, h2⟩ := hok e ((hsortmem e).mp he)
      exact ⟨h1, h2⟩⟩)
    (fun e he => by simp at he)
    (List.sorted_insertionSort edgeLE edges)
    (fun x y hx hy => by
      rw [init_sameSet hx hy, mconn_zero])
    ⟨↑S₀.dedup,
      fun f hf => hS₀.1 f (List.mem_dedup.mp (Multiset.mem_coe.mp hf)),
      hMr0,
      fun a b hab => by
        rw [zero_add]
        have h1 := hS₀.2 a b hab
        rw [lconn_iff_mconn] at h1
        refine (mconn_congr ?_).mp h1
        intro e
        rw [Multiset.mem_coe, Multiset.mem_coe, List.mem_dedup],
      fun S hS => by
        have h1 : mwsum (↑S₀.dedup : Multiset Edge) ≤ wsum S₀ := by
          rw [mwsum_coe]
          have hsub : S₀.dedup.Sublist S₀ := List.dedup_sublist S₀
          unfold wsum
          exact List.Sublist.sum_le_sum (hsub.map _) (fun _ _ => Nat.zero_le _)
        have h2 := hS₀min S hS
        have h3 : mwsum (0 : Multiset Edge) = 0 := by simp [mwsum]
        omega⟩
  have h0 : mwsum (0 : Multiset Edge) = 0 := by simp [mwsum]
  rw [h0] at hmain
  obtain ⟨w', c', hloop, hach, hlow⟩ := hmain
  refine ⟨w', ?_, hach, hlow⟩
  rw [run_kruskal, hloop]
  rfl

/-! ### Prim: queue and measure helpers -/

lemma push_fold_mem_keep {W : List Nat} : ∀ (nbrs : List (Nat × Nat))
    (q : List (Nat × Nat)) (e : Nat × Nat), e ∈ q →
    e ∈ nbrs.foldl (fun q p => if p.2 ∈ W then q else heappush q p) q := by
  intro nbrs
  induction nbrs with
  | nil => intro q e he; exact he
  | cons p nbrs ih =>
    intro q e he
    simp only [List.foldl_cons]
    apply ih
    by_cases hp : p.2 ∈ W
    · rw [if_pos hp]
      exact he
    · rw [if_neg hp]
      exact (List.mem_orderedInsert entryLE ..).mpr (Or.inr he)

lemma push_fold_mem_elim {W : List Nat} : ∀ (nbrs : List (Nat × Nat))
    (q : List (Nat × Nat)) (e : Nat × Nat),
    e ∈ nbrs.foldl (fun q p => if p.2 ∈ W then q else heappush q p) q →
    e ∈ q ∨ e ∈ nbrs := by
  intro nbrs
  induction nbrs with
  | nil => intro q e he; exact Or.inl he
  | cons p nbrs ih =>
    intro q e he
    simp only [List.foldl_cons] at he
    rcases ih _ e he with h | h
    · by_cases hp : p.2 ∈ W
      · rw [if_pos hp] at h
        exact Or.inl h
      · rw [if_neg hp] at h
        rcases (List.mem_orderedInsert entryLE ..).mp h with h | h
        · exact Or.inr (by simp [h])
        · exact Or.inl h
    · exact Or.inr (List.mem_cons_of_mem _ h)

lemma push_fold_mem_new {W : List Nat} : ∀ (nbrs : List (Nat × Nat))
    (q : List (Nat × Nat)) (e : Nat × Nat), e ∈ nbrs → e.2 ∉ W →
    e ∈ nbrs.foldl (fun q p => if p.2 ∈ W then q else heappush q p) q := by
  intro nbrs
  induction nbrs with
  | nil => intro q e he; simp at he
  | cons p nbrs ih =>
    intro q e he hW
    simp only [List.foldl_cons]
    rcases List.mem_cons.mp he with he | he
    · subst he
      apply push_fold_mem_keep
      rw [if_neg hW]
      exact (List.mem_orderedInsert entryLE ..).mpr (Or.inl rfl)
    · exact ih _ e he hW

lemma push_fold_sorted {W : List Nat} : ∀ (nbrs : List (Nat × Nat))
    (q : List (Nat × Nat)), List.Sorted entryLE q →
    List.Sorted entryLE (nbrs.foldl (fun q p => if p.2 ∈ W then q else heappush q p) q) := by
  intro nbrs
  induction nbrs with
  | nil => intro q hq; exact hq
  | cons p nbrs ih =>
    intro q hq
    simp only [List.foldl_cons]
    apply ih
    by_cases hp : p.2 ∈ W
    · rw [if_pos hp]
      exact hq
    · rw [if_neg hp]
      exact List.Sorted.orderedInsert p q hq

lemma push_fold_length (W : List Nat) : ∀ (nbrs : List (Nat × Nat))
    (q : List (Nat × Nat)),
    (nbrs.foldl (fun q p => if p.2 ∈ W then q else heappush q p) q).length ≤
      q.length + nbrs.length := by
  intro nbrs
  induction nbrs with
  | nil => intro q; simp
  | cons p nbrs ih =>
    intro q
    simp only [List.foldl_cons]
    by_cases hp : p.2 ∈ W
    · rw [if_pos hp]
      have := ih q
      simp only [List.length_cons]
      omega
    · rw [if_neg hp]
      have h1 := ih (heappush q p)
      have h2 : (heappush q p).length = q.length + 1 :=
        List.orderedInsert_length entryLE q p
      simp only [List.length_cons]
      omega

lemma sorted_head_min {w0 u wf y : Nat} {rest : List (Nat × Nat)}
    (hs : List.Sorted entryLE ((w0, u) :: rest)) (hm : (wf, y) ∈ (w0, u) :: rest) :
    w0 ≤ wf := by
  rcases List.mem_cons.mp hm with he | hm
  · injection he with h1 _
    omega
  · have := (List.sorted_cons.mp hs).1 (wf, y) hm
    rcases this with h | ⟨h, _⟩
    · exact Nat.le_of_lt h
    · omega

lemma unvisitedSize_mono {adj : Adj} {V V' : List Nat} (h : ∀ x, x ∈ V → x ∈ V') :
    unvisitedSize adj V' ≤ unvisitedSize adj V := by
  unfold unvisitedSize
  induction adj with
  | nil => simp
  | cons kv rest ih =>
    simp only [List.map_cons, List.sum_cons]
    have hkv : (if kv.1 ∈ V' then 0 else kv.2.length) ≤
        (if kv.1 ∈ V then 0 else kv.2.length) := by
      by_cases h1 : kv.1 ∈ V
      · rw [if_pos h1, if_pos (h _ h1)]
      · rw [if_neg h1]
        by_cases h2 : kv.1 ∈ V'
        · rw [if_pos h2]
          omega
        · rw [if_neg h2]
    omega

lemma unvisitedSize_append_empty (adj : Adj) (u : Nat) (W : List Nat) :
    unvisitedSize (adj ++ [(u, [])]) W = unvisitedSize adj W := by
  unfold unvisitedSize
  simp

lemma unvisitedSize_visit {adj : Adj} {u : Nat} {V : List Nat} (hu : u ∉ V) :
    unvisitedSize adj (u :: V) + (AdjView adj u).length ≤ unvisitedSize adj V := by
  induction adj with
  | nil => simp [unvisitedSize, AdjView, alookup]
  | cons kv rest ih =>
    obtain ⟨k, l⟩ := kv
    by_cases hk : k = u
    · subst hk
      have hview : AdjView ((k, l) :: rest) k = l := by
        simp [AdjView, alookup]
      rw [hview]
      have hmono : unvisitedSize rest (k :: V) ≤ unvisitedSize rest V :=
        unvisitedSize_mono (fun x hx => List.mem_cons_of_mem _ hx)
      show (if k ∈ k :: V then 0 else l.length) + unvisitedSize rest (k :: V) + l.length ≤
        (if k ∈ V then 0 else l.length) + unvisitedSize rest V
      rw [if_pos (by simp), if_neg hu]
      omega
    · have hview : AdjView ((k, l) :: rest) u = AdjView rest u := by
        simp [AdjView, alookup, hk]
      rw [hview]
      have hk2 : (if k ∈ u :: V then 0 else l.length) = (if k ∈ V then 0 else l.length) := by
        by_cases h1 : k ∈ V
        · rw [if_pos h1, if_pos (List.mem_cons_of_mem _ h1)]
        · rw [if_neg h1, if_neg (by
            intro hmem
            rcases List.mem_cons.mp hmem with he | he
            · exact hk he
            · exact h1 he)]
      show (if k ∈ u :: V then 0 else l.length) + unvisitedSize rest (u :: V) +
          (AdjView rest u).length ≤ (if k ∈ V then 0 else l.length) + unvisitedSize rest V
      rw [hk2]
      omega

lemma dictGet_fst (adj : Adj) (u : Nat) : (dictGet adj u).1 = AdjView adj u := by
  unfold dictGet AdjView
  cases h : alookup adj u with
  | none => simp
  | some l => simp

lemma dictGet_view (adj : Adj) (u x : Nat) :
    AdjView (dictGet adj u).2 x = AdjView adj x := by
  unfold dictGet
  cases h : alookup adj u with
  | none =>
    simp only
    exact AdjView_append_empty adj u x
  | some l => rfl

lemma lconn_range {n : Nat} {E : List Edge} (hE : endpointsOK n E) {a b : Nat}
    (h : lconn E a b) : a = b ∨ ((1 ≤ a ∧ a ≤ n) ∧ (1 ≤ b ∧ b ≤ n)) := by
  refine RST_le_of_equiv (fun a b => (1 ≤ a ∧ a ≤ n) ∧ (1 ≤ b ∧ b ≤ n))
    (fun _ _ h => ⟨h.2, h.1⟩) (fun _ _ _ h1 h2 => ⟨h1.1, h2.2⟩) ?_ h
  intro p q hpq
  obtain ⟨w, hw⟩ := hpq
  obtain ⟨h1, h2, h3, h4⟩ := hE _ hw
  exact ⟨⟨h1, h2⟩, ⟨h3, h4⟩⟩

lemma le_erase_of_notMem {TM M : Multiset Edge} {f : Edge} (h : TM ≤ M) (h0 : f ∉ TM) :
    TM ≤ M.erase f := by
  rw [Multiset.le_iff_count] at h ⊢
  intro g
  by_cases hg : g = f
  · subst hg
    rw [Multiset.count_eq_zero_of_not_mem h0]
    omega
  · rw [Multiset.count_erase_of_ne hg]
    exact h g

lemma AdjView_of_none {adj : Adj} {u : Nat} (h : alookup adj u = none) :
    AdjView adj u = [] := by
  simp [AdjView, h]

lemma dictGet_phi (adj : Adj) (u : Nat) (V : List Nat) (hu : u ∉ V) :
    unvisitedSize (dictGet adj u).2 (u :: V) + (AdjView adj u).length ≤
      unvisitedSize adj V := by
  unfold dictGet
  cases h : alookup adj u with
  | none =>
    simp only
    rw [unvisitedSize_append_empty, AdjView_of_none h]
    simp only [List.length_nil, Nat.add_zero]
    exact unvisitedSize_mono (fun x hx => List.mem_cons_of_mem _ hx)
  | some l =>
    simp only
    exact unvisitedSize_visit hu

lemma prim_loop_opt (n : Nat) (E : List Edge) (hE : endpointsOK n E) :
    ∀ (fuel : Nat) (pq : List (Nat × Nat)) (V : List Nat) (TM : Multiset Edge) (adj : Adj),
    primPhi pq V adj < fuel →
    (∀ a wt b, ((wt, b) ∈ AdjView adj a) ↔ ((a, b, wt) ∈ E ∨ (b, a, wt) ∈ E)) →
    List.Sorted entryLE pq →
    V.Nodup →
    (∀ x, x ∈ V → 1 ≤ x ∧ x ≤ n ∧ lconn E 1 x) →
    1 ∈ V →
    (∀ wq x, (wq, x) ∈ pq → ∃ a, a ∈ V ∧ ((a, x, wq) ∈ E ∨ (x, a, wq) ∈ E)) →
    (∀ g : Edge, g ∈ TM → g ∈ E) →
    (∀ g : Edge, g ∈ TM → g.1 ∈ V ∧ g.2.1 ∈ V) →
    (∀ a b, a ∈ V → b ∈ V → mconn TM a b) →
    (∀ a b wt, ((a, b, wt) : Edge) ∈ E →
      (a ∈ V → b ∉ V → (wt, b) ∈ pq) ∧ (b ∈ V → a ∉ V → (wt, a) ∈ pq)) →
    (∃ M : Multiset Edge, TM ≤ M ∧ (∀ g : Edge, g ∈ M → g ∈ E) ∧
      (∀ a b, lconn E 1 a → lconn E 1 b → mconn M a b) ∧
      (∀ S, SpansFrom1 E S → mwsum M ≤ wsum S)) →
    ∃ s' pq' V' adj', primLoop fuel n pq V (mwsum TM) adj = some (s', pq', V', adj') ∧
      (∃ S, SpansFrom1 E S ∧ wsum S = s') ∧ (∀ S, SpansFrom1 E S → s' ≤ wsum S) ∧
      V'.Nodup ∧ (∀ x, x ∈ V' → 1 ≤ x ∧ x ≤ n ∧ lconn E 1 x) ∧
      (pq' = [] ∨ n ≤ V'.length) := by
  intro fuel
  induction fuel with
  | zero =>
    intro pq V TM adj hfuel
    omega
  | succ fuel ih =>
    intro pq V TM adj hfuel hAdj hsorted hnd hVr h1V hQ hTME hTMV hTMspan hcut hOPT
    obtain ⟨M, hTMleM, hME, hMspan, hMmin⟩ := hOPT
    -- final minimality package, given that V contains the whole component of 1
    have hfinal : (∀ z, lconn E 1 z → z ∈ V) →
        (∃ S, SpansFrom1 E S ∧ wsum S = mwsum TM) ∧
          (∀ S, SpansFrom1 E S → mwsum TM ≤ wsum S) := by
      intro hcov
      constructor
      · refine ⟨TM.toList, ⟨?_, ?_⟩, wsum_toList TM⟩
        · intro g hg
          exact hTME g (Multiset.mem_toList.mp hg)
        · intro a b ha hb
          have h1 := hTMspan a b (hcov a ha) (hcov b hb)
          exact connP_mono (fun e he => Multiset.mem_toList.mpr he) h1
      · intro S hS
        exact le_trans (mwsum_le_of_le hTMleM) (hMmin S hS)
    cases pq with
    | nil =>
      -- queue drained: the whole component of the start vertex is visited
      have hnocross : ∀ z, lconn E 1 z → z ∈ V := by
        intro z hz
        have hresp := connP_respects (fun x => x ∈ V) ?hcl hz
        · exact hresp.mp h1V
        case hcl =>
          intro e he
          obtain ⟨p, q, wt⟩ := e
          constructor
          · intro hp
            by_contra hq
            exact absurd ((hcut p q wt he).1 hp hq) (by simp)
          · intro hq
            by_contra hp
            exact absurd ((hcut p q wt he).2 hq hp) (by simp)
      obtain ⟨hach, hlow⟩ := hfinal hnocross
      exact ⟨mwsum TM, [], V, adj, by simp [primLoop], hach, hlow, hnd, hVr, Or.inl rfl⟩
    | cons e0 rest =>
      obtain ⟨w0, u⟩ := e0
      by_cases hnV : n ≤ V.length
      · -- all vertices visited
        have hcov : ∀ z, lconn E 1 z → z ∈ V := by
          intro z hz
          rcases lconn_range hE hz with hz1 | ⟨_, hz2⟩
          · rw [← hz1]
            exact h1V
          · have hsub : V.toFinset ⊆ Finset.Icc 1 n := by
              intro x hx
              have := hVr x (List.mem_toFinset.mp hx)
              rw [Finset.mem_Icc]
              omega
            have hcard : (Finset.Icc 1 n).card ≤ V.toFinset.card := by
              rw [List.toFinset_card_of_nodup hnd, Nat.card_Icc]
              omega
            have heq := Finset.eq_of_subset_of_card_le hsub hcard
            have hzin : z ∈ Finset.Icc 1 n := by
              rw [Finset.mem_Icc]
              omega
            rw [← heq] at hzin
            exact List.mem_toFinset.mp hzin
        obtain ⟨hach, hlow⟩ := hfinal hcov
        refine ⟨mwsum TM, (w0, u) :: rest, V, adj, ?_, hach, hlow, hnd, hVr, Or.inr hnV⟩
        simp [primLoop, hnV]
      · by_cases huV : u ∈ V
        · -- lazy deletion: stale entry skipped
          have hstep : primLoop (fuel + 1) n ((w0, u) :: rest) V (mwsum TM) adj =
              primLoop fuel n rest V (mwsum TM) adj := by
            simp [primLoop, hnV, huV]
          rw [hstep]
          apply ih rest V TM adj ?_ hAdj (List.sorted_cons.mp hsorted).2 hnd hVr h1V
            ?_ hTME hTMV hTMspan ?_ ⟨M, hTMleM, hME, hMspan, hMmin⟩
          · have : primPhi ((w0, u) :: rest) V adj < fuel + 1 := hfuel
            simp only [primPhi, List.length_cons] at this ⊢
            omega
          · intro wq x hx
            exact hQ wq x (List.mem_cons_of_mem _ hx)
          · intro a b wt he
            refine ⟨?_, ?_⟩
            · intro ha hb
              have h1 := (hcut a b wt he).1 ha hb
              rcases List.mem_cons.mp h1 with h1 | h1
              · injection h1 with _ h2
                exact absurd (h2 ▸ huV) hb
              · exact h1
            · intro hb ha
              have h1 := (hcut a b wt he).2 hb ha
              rcases List.mem_cons.mp h1 with h1 | h1
              · injection h1 with _ h2
                exact absurd (h2 ▸ huV) ha
              · exact h1
        · -- visit u
          obtain ⟨a, haV, hor⟩ := hQ w0 u (List.mem_cons_self ..)
          obtain ⟨ge, hgeE, hgew, hgeconn, hgeEnds⟩ :
              ∃ ge : Edge, ge ∈ E ∧ ge.2.2 = w0 ∧
                (∀ N : Multiset Edge, ge ∈ N → mconn N a u) ∧
                ((ge.1 = a ∧ ge.2.1 = u) ∨ (ge.1 = u ∧ ge.2.1 = a)) := by
            rcases hor with h | h
            · exact ⟨(a, u, w0), h, rfl, fun N hN => RST.base ⟨w0, hN⟩,
                Or.inl ⟨rfl, rfl⟩⟩
            · exact ⟨(u, a, w0), h, rfl, fun N hN => RST.symm (RST.base ⟨w0, hN⟩),
                Or.inr ⟨rfl, rfl⟩⟩
          have hucomp : lconn E 1 u :=
            RST.trans (hVr a haV).2.2 (hgeconn ↑E (Multiset.mem_coe.mpr hgeE))
          have hurange : 1 ≤ u ∧ u ≤ n := by
            obtain ⟨h1, h2, h3, h4⟩ := hE ge hgeE
            rcases hgeEnds with ⟨ha1, ha2⟩ | ⟨ha1, ha2⟩
            · rw [ha2] at h3 h4
              exact ⟨h3, h4⟩
            · rw [ha1] at h1 h2
              exact ⟨h1, h2⟩
          set TM' : Multiset Edge := ge ::ₘ TM with hTM'
          have hmw : mwsum TM + w0 = mwsum TM' := by
            rw [hTM', mwsum_cons, hgew]
            omega
          have hstep : primLoop (fuel + 1) n ((w0, u) :: rest) V (mwsum TM) adj =
              primLoop fuel n
                ((dictGet adj u).1.foldl
                  (fun q p => if p.2 ∈ u :: V then q else heappush q p) rest)
                (u :: V) (mwsum TM + w0) (dictGet adj u).2 := by
            simp [primLoop, hnV, huV]
          rw [hstep, hmw, dictGet_fst]
          -- invariant re-establishment
          have hAdj' : ∀ a wt b, ((wt, b) ∈ AdjView (dictGet adj u).2 a) ↔
              ((a, b, wt) ∈ E ∨ (b, a, wt) ∈ E) := by
            intro a' wt b'
            rw [dictGet_view]
            exact hAdj a' wt b'
          have hsorted' : List.Sorted entryLE
              ((AdjView adj u).foldl
                (fun q p => if p.2 ∈ u :: V then q else heappush q p) rest) :=
            push_fold_sorted _ rest (List.sorted_cons.mp hsorted).2
          have hnd' : (u :: V).Nodup := List.nodup_cons.mpr ⟨huV, hnd⟩
          have hVr' : ∀ x, x ∈ u :: V → 1 ≤ x ∧ x ≤ n ∧ lconn E 1 x := by
            intro x hx
            rcases List.mem_cons.mp hx with hx | hx
            · subst hx
              exact ⟨hurange.1, hurange.2, hucomp⟩
            · exact hVr x hx
          have h1V' : 1 ∈ u :: V := List.mem_cons_of_mem _ h1V
          have hQ' : ∀ wq x, (wq, x) ∈ (AdjView adj u).foldl
              (fun q p => if p.2 ∈ u :: V then q else heappush q p) rest →
              ∃ a, a ∈ u :: V ∧ ((a, x, wq) ∈ E ∨ (x, a, wq) ∈ E) := by
            intro wq x hx
            rcases push_fold_mem_elim _ rest (wq, x) hx with h | h
            · obtain ⟨a', ha', hor'⟩ := hQ wq x (List.mem_cons_of_mem _ h)
              exact ⟨a', List.mem_cons_of_mem _ ha', hor'⟩
            · exact ⟨u, List.mem_cons_self .., (hAdj u wq x).mp h⟩
          have hTME' : ∀ g : Edge, g ∈ TM' → g ∈ E := by
            intro g hg
            rcases Multiset.mem_cons.mp hg with hg | hg
            · rw [hg]
              exact hgeE
            · exact hTME g hg
          have hTMV' : ∀ g : Edge, g ∈ TM' → g.1 ∈ u :: V ∧ g.2.1 ∈ u :: V := by
            intro g hg
            rcases Multiset.mem_cons.mp hg with hg | hg
            · rw [hg]
              rcases hgeEnds with ⟨h1, h2⟩ | ⟨h1, h2⟩ <;> rw [h1, h2]
              · exact ⟨List.mem_cons_of_mem _ haV, List.mem_cons_self ..⟩
              · exact ⟨List.mem_cons_self .., List.mem_cons_of_mem _ haV⟩
            · obtain ⟨h1, h2⟩ := hTMV g hg
              exact ⟨List.mem_cons_of_mem _ h1, List.mem_cons_of_mem _ h2⟩
          have hTMlift : ∀ p q, mconn TM p q → mconn TM' p q :=
            fun p q h => connP_mono (fun e he => Multiset.mem_cons_of_mem he) h
          have hau' : mconn TM' a u := hgeconn TM' (Multiset.mem_cons_self ..)
          have hTMspan' : ∀ p q, p ∈ u :: V → q ∈ u :: V → mconn TM' p q := by
            intro p q hp hq
            have hside : ∀ z, z ∈ u :: V → mconn TM' z u := by
              intro z hz
              rcases List.mem_cons.mp hz with hz | hz
              · rw [hz]
                exact RST.refl u
              · exact RST.trans (hTMlift _ _ (hTMspan z a hz haV)) hau'
            exact RST.trans (hside p hp) (RST.symm (hside q hq))
          have hcut' : ∀ a' b' wt, ((a', b', wt) : Edge) ∈ E →
              (a' ∈ u :: V → b' ∉ u :: V →
                (wt, b') ∈ (AdjView adj u).foldl
                  (fun q p => if p.2 ∈ u :: V then q else heappush q p) rest) ∧
              (b' ∈ u :: V → a' ∉ u :: V →
                (wt, a') ∈ (AdjView adj u).foldl
                  (fun q p => if p.2 ∈ u :: V then q else heappush q p) rest) := by
            intro a' b' wt he
            constructor
            · intro ha' hb'
              rcases List.mem_cons.mp ha' with ha' | ha'
              · subst ha'
                have hv : (wt, b') ∈ AdjView adj a' := (hAdj a' wt b').mpr (Or.inl he)
                exact push_fold_mem_new _ rest (wt, b') hv hb'
              · have hbV : b' ∉ V := fun h => hb' (List.mem_cons_of_mem _ h)
                have h1 := (hcut a' b' wt he).1 ha' hbV
                rcases List.mem_cons.mp h1 with h1 | h1
                · injection h1 with _ h2
                  exact absurd (h2 ▸ List.mem_cons_self u V) hb'
                · exact push_fold_mem_keep _ rest _ h1
            · intro hb' ha'
              rcases List.mem_cons.mp hb' with hb' | hb'
              · subst hb'
                have hv : (wt, a') ∈ AdjView adj b' := (hAdj b' wt a').mpr (Or.inr he)
                exact push_fold_mem_new _ rest (wt, a') hv ha'
              · have haV2 : a' ∉ V := fun h => ha' (List.mem_cons_of_mem _ h)
                have h1 := (hcut a' b' wt he).2 hb' haV2
                rcases List.mem_cons.mp h1 with h1 | h1
                · injection h1 with _ h2
                  exact absurd (h2 ▸ List.mem_cons_self u V) ha'
                · exact push_fold_mem_keep _ rest _ h1
          have hphi' : primPhi
              ((AdjView adj u).foldl
                (fun q p => if p.2 ∈ u :: V then q else heappush q p) rest)
              (u :: V) (dictGet adj u).2 < fuel := by
            have h1 := push_fold_length (u :: V) (AdjView adj u) rest
            have h2 := dictGet_phi adj u V huV
            have h3 : primPhi ((w0, u) :: rest) V adj < fuel + 1 := hfuel
            simp only [primPhi, List.length_cons] at h3 ⊢
            omega
          -- optimality certificate update
          have hOPT' : ∃ M' : Multiset Edge, TM' ≤ M' ∧ (∀ g : Edge, g ∈ M' → g ∈ E) ∧
              (∀ a b, lconn E 1 a → lconn E 1 b → mconn M' a b) ∧
              (∀ S, SpansFrom1 E S → mwsum M' ≤ wsum S) := by
            by_cases hcnt : TM' ≤ M
            · exact ⟨M, hcnt, hME, hMspan, hMmin⟩
            · have hMau : mconn M a u := hMspan a u (hVr a haV).2.2 hucomp
              obtain ⟨f, hfM, c0, d0, hor', hc0, hd0, hconn_ac, hconn_du⟩ :=
                exchange_edge (fun z => z ∈ V) haV huV hMau
              have hfE : f ∈ E := hME f hfM
              have hfTM : f ∉ TM := by
                intro hfT
                obtain ⟨h1, h2⟩ := hTMV f hfT
                rcases hor' with ⟨hc, hd⟩ | ⟨hc, hd⟩
                · exact hd0 (hd ▸ h2)
                · exact hd0 (hd ▸ h1)
              have hwf : w0 ≤ f.2.2 := by
                have hfE' : ((f.1, f.2.1, f.2.2) : Edge) ∈ E := hfE
                have hpq : (f.2.2, d0) ∈ (w0, u) :: rest := by
                  rcases hor' with ⟨hc, hd⟩ | ⟨hc, hd⟩
                  · rw [hd]
                    exact (hcut f.1 f.2.1 f.2.2 hfE').1 (hc ▸ hc0) (hd ▸ hd0)
                  · rw [hd]
                    exact (hcut f.1 f.2.1 f.2.2 hfE').2 (hc ▸ hc0) (hd ▸ hd0)
                exact sorted_head_min hsorted hpq
              have hTMleM' : TM ≤ M.erase f := le_erase_of_notMem hTMleM hfTM
              refine ⟨ge ::ₘ M.erase f, Multiset.cons_le_cons ge hTMleM', ?_, ?_, ?_⟩
              · intro g hg
                rcases Multiset.mem_cons.mp hg with hg | hg
                · rw [hg]
                  exact hgeE
                · exact hME g (Multiset.mem_of_le (Multiset.erase_le f M) hg)
              · intro p q hp hq
                have hold := hMspan p q hp hq
                refine connP_replace ?_ hold
                intro g hg
                by_cases hgf : g = f
                · subst hgf
                  have hlift2 : ∀ p q, mconn (M.erase g) p q →
                      mconn (ge ::ₘ M.erase g) p q :=
                    fun p q h => connP_mono (fun e he => Multiset.mem_cons_of_mem he) h
                  have hgeM : mconn (ge ::ₘ M.erase g) a u :=
                    hgeconn _ (Multiset.mem_cons_self ..)
                  have hcd : mconn (ge ::ₘ M.erase g) c0 d0 := by
                    refine RST.trans (RST.symm (hlift2 _ _ hconn_ac)) ?_
                    exact RST.trans hgeM (RST.symm (hlift2 _ _ hconn_du))
                  rcases hor' with ⟨hc, hd⟩ | ⟨hc, hd⟩
                  · rw [hc] at hcd
                    rw [hd] at hcd
                    exact hcd
                  · rw [hc] at hcd
                    rw [hd] at hcd
                    exact RST.symm hcd
                · exact connP_base (Multiset.mem_cons_of_mem
                    ((Multiset.mem_erase_of_ne hgf).mpr hg))
              · intro S hS
                have h1 := hMmin S hS
                have h2 : mwsum M = f.2.2 + mwsum (M.erase f) := mwsum_erase hfM
                rw [mwsum_cons, hgew]
                omega
          exact ih _ (u :: V) TM' (dictGet adj u).2 hphi' hAdj' hsorted' hnd' hVr' h1V'
            hQ' hTME' hTMV' hTMspan' hcut' hOPT'

lemma spansFrom1_self (E : List Edge) : SpansFrom1 E E :=
  ⟨fun _ he => he, fun _ _ ha hb => RST.trans (RST.symm ha) hb⟩

lemma exists_min_spanning1 (E : List Edge) :
    ∃ S₀, SpansFrom1 E S₀ ∧ ∀ S, SpansFrom1 E S → wsum S₀ ≤ wsum S := by
  obtain ⟨m, hm, hmin⟩ := Nat.lt_wfRel.wf.has_min
    {w | ∃ S, SpansFrom1 E S ∧ wsum S = w} ⟨wsum E, E, spansFrom1_self E, rfl⟩
  obtain ⟨S₀, hS₀, hw⟩ := hm
  refine ⟨S₀, hS₀, fun S hS => ?_⟩
  have h1 : m ≤ wsum S := Nat.le_of_not_lt (hmin (wsum S) ⟨S, hS, rfl⟩)
  omega

lemma lconn_nil {x y : Nat} : lconn [] x y ↔ x = y := by
  constructor
  · intro h
    rcases RST_le_of_equiv (fun a b => a = b) (fun _ _ h => h.symm)
      (fun _ _ _ h1 h2 => h1.trans h2)
      (fun a b hab => by
        obtain ⟨w, hw⟩ := hab
        simp at hw) h with h | h
    · exact h
    · exact h
  · rintro rfl
    exact RST.refl x

lemma unvisitedSize_nil_visited (adj : Adj) : unvisitedSize adj [] = adjSize adj := by
  unfold unvisitedSize adjSize
  congr 1

lemma run_prim_comp1 (n : Nat) (E : List Edge) (adj : Adj) (hn : 1 ≤ n)
    (hE : endpointsOK n E) (hAdj : AdjMatches adj E) :
    ∃ s' pq' V' adj',
      primLoop (adjSize adj + 2) n [(0, 1)] [] 0 adj = some (s', pq', V', adj') ∧
      IsComp1MSTWeight E s' ∧ V'.Nodup ∧
      (∀ x, x ∈ V' → 1 ≤ x ∧ x ≤ n ∧ lconn E 1 x) ∧
      (pq' = [] ∨ n ≤ V'.length) := by
  have hstep : primLoop (adjSize adj + 2) n [(0, 1)] [] 0 adj =
      primLoop (adjSize adj + 1) n
        ((dictGet adj 1).1.foldl
          (fun q p => if p.2 ∈ 1 :: ([] : List Nat) then q else heappush q p) [])
        (1 :: []) (0 + 0) (dictGet adj 1).2 := by
    show primLoop (adjSize adj + 1 + 1) n ((0, 1) :: []) [] 0 adj = _
    simp only [primLoop]
    rw [if_neg (show ¬ n ≤ ([] : List Nat).length by simp; omega)]
    rw [if_neg (show (1 : Nat) ∉ ([] : List Nat) by simp)]
  rw [hstep, dictGet_fst]
  have h00 : (0 : Nat) + 0 = mwsum (0 : Multiset Edge) := by simp [mwsum]
  rw [h00]
  obtain ⟨S₀, hS₀, hS₀min⟩ := exists_min_spanning1 E
  have hddnd : (↑S₀.dedup : Multiset Edge).Nodup := by
    rw [Multiset.coe_nodup]
    exact List.nodup_dedup S₀
  have hmain := prim_loop_opt n E hE (adjSize adj + 1)
    ((AdjView adj 1).foldl
      (fun q p => if p.2 ∈ 1 :: ([] : List Nat) then q else heappush q p) [])
    (1 :: []) 0 (dictGet adj 1).2
    ?_ ?_ ?_ ?_ ?_ ?_ ?_ ?_ ?_ ?_ ?_ ?_
  · obtain ⟨s', pq', V', adj', hloop, hach, hlow, hnd', hVr', hexit⟩ := hmain
    exact ⟨s', pq', V', adj', hloop, ⟨hach, hlow⟩, hnd', hVr', hexit⟩
  · -- measure
    have h1 := push_fold_length (1 :: ([] : List Nat)) (AdjView adj 1) []
    have h2 := dictGet_phi adj 1 [] (by simp)
    have h3 : unvisitedSize adj [] = adjSize adj := unvisitedSize_nil_visited adj
    simp only [primPhi, List.length_nil] at h1 h2 ⊢
    omega
  · intro a wt b
    rw [dictGet_view]
    exact hAdj a wt b
  · exact push_fold_sorted _ [] (by simp)
  · simp
  · intro x hx
    rcases List.mem_cons.mp hx with hx | hx
    · subst hx
      exact ⟨le_refl 1, hn, RST.refl 1⟩
    · simp at hx
  · simp
  · intro wq x hx
    rcases push_fold_mem_elim _ [] (wq, x) hx with h | h
    · simp at h
    · exact ⟨1, by simp, (hAdj 1 wq x).mp h⟩
  · intro g hg
    simp at hg
  · intro g hg
    simp at hg
  · intro a b ha hb
    rcases List.mem_cons.mp ha with ha | ha
    · rcases List.mem_cons.mp hb with hb | hb
      · rw [ha, hb]
        exact RST.refl 1
      · simp at hb
    · simp at ha
  · intro a b wt he
    constructor
    · intro ha hb
      rcases List.mem_cons.mp ha with ha | ha
      · subst ha
        have hv : (wt, b) ∈ AdjView adj 1 := (hAdj 1 wt b).mpr (Or.inl he)
        exact push_fold_mem_new _ [] (wt, b) hv hb
      · simp at ha
    · intro hb ha
      rcases List.mem_cons.mp hb with hb | hb
      · subst hb
        have hv : (wt, a) ∈ AdjView adj 1 := (hAdj 1 wt a).mpr (Or.inr he)
        exact push_fold_mem_new _ [] (wt, a) hv ha
      · simp at hb
  · refine ⟨↑S₀.dedup, Multiset.zero_le _, ?_, ?_, ?_⟩
    · intro g hg
      exact hS₀.1 g (List.mem_dedup.mp (Multiset.mem_coe.mp hg))
    · intro a b ha hb
      have h1 := hS₀.2 a b ha hb
      rw [lconn_iff_mconn] at h1
      refine (mconn_congr ?_).mp h1
      intro e
      rw [Multiset.mem_coe, Multiset.mem_coe, List.mem_dedup]
    · intro S hS
      have h1 : mwsum (↑S₀.dedup : Multiset Edge) ≤ wsum S₀ := by
        rw [mwsum_coe]
        have hsub : S₀.dedup.Sublist S₀ := List.dedup_sublist S₀
        unfold wsum
        exact List.Sublist.sum_le_sum (hsub.map _) (fun _ _ => Nat.zero_le _)
      have h2 := hS₀min S hS
      omega

lemma spans_iff_from1 (n : Nat) (E : List Edge) (hn : 1 ≤ n) (hE : endpointsOK n E)
    (hconn : ∀ a b, 1 ≤ a → a ≤ n → 1 ≤ b → b ≤ n → lconn E a b) (S : List Edge) :
    Spans E S ↔ SpansFrom1 E S := by
  constructor
  · intro h
    exact ⟨h.1, fun a b ha hb => h.2 a b (RST.trans (RST.symm ha) hb)⟩
  · intro h
    refine ⟨h.1, fun a b hab => ?_⟩
    rcases lconn_range hE hab with rfl | ⟨⟨ha1, ha2⟩, hb1, hb2⟩
    · exact RST.refl a
    · exact h.2 a b (hconn 1 a (le_refl 1) hn ha1 ha2) (hconn 1 b (le_refl 1) hn hb1 hb2)

/-- C1: for every connected graph input (`num_nodes = n ≥ 1`, edge endpoints
in `[1, n]`, adjacency structure holding both directions of every edge, every
pair of vertices in `[1, n]` connected), `run_kruskal` and `run_prim` return
the same total weight, and that weight is the minimum total weight of any
connectivity-preserving edge subset — the weight of a minimum spanning tree. -/
theorem C1_connected_mst_agreement (n : Nat) (edges : List Edge) (adj : Adj)
    (hn : 1 ≤ n) (hE : endpointsOK n edges) (hAdj : AdjMatches adj edges)
    (hconn : ∀ a b, 1 ≤ a → a ≤ n → 1 ≤ b → b ≤ n → lconn edges a b) :
    ∃ k adj', run_kruskal n edges = some k ∧ run_prim n adj = some (k, adj') ∧
      IsMSFWeight edges k ∧ IsComp1MSTWeight edges k := by
  obtain ⟨k, hk, hkmsf⟩ := run_kruskal_msf n edges hE
  obtain ⟨p, pq', V', adj', hloop, hpmst, _, _, _⟩ :=
    run_prim_comp1 n edges adj hn hE hAdj
  have hprim : run_prim n adj = some (p, adj') := by
    simp [run_prim, hloop]
  have hkp : k = p := by
    obtain ⟨⟨Sk, hSk, hwk⟩, hkmin⟩ := hkmsf
    obtain ⟨⟨Sp, hSp, hwp⟩, hpmin⟩ := hpmst
    have h1 : k ≤ wsum Sp := hkmin Sp ((spans_iff_from1 n edges hn hE hconn Sp).mpr hSp)
    have h2 : p ≤ wsum Sk := hpmin Sk ((spans_iff_from1 n edges hn hE hconn Sk).mp hSk)
    omega
  refine ⟨k, adj', hk, ?_, hkmsf, ?_⟩
  · rw [hkp]
    exact hprim
  · rw [hkp]
    exact hpmst

/-- Witness for C1 at the concrete input `n = 1`, no edges, empty adjacency:
the single-vertex graph is connected, and both algorithms succeed with the
minimum spanning weight. -/
theorem C1_witness :
    ∃ k adj', run_kruskal 1 [] = some k ∧ run_prim 1 [] = some (k, adj') ∧
      IsMSFWeight [] k ∧ IsComp1MSTWeight [] k := by
  refine C1_connected_mst_agreement 1 [] [] (le_refl 1) ?_ ?_ ?_
  · intro e he
    simp at he
  · intro a wt b
    constructor
    · intro h
      simp [AdjView, alookup] at h
    · intro h
      simp at h
  · intro a b h1 h2 h3 h4
    have ha : a = 1 := by omega
    have hb : b = 1 := by omega
    rw [ha, hb]
    exact RST.refl 1

/-- C2: for every disconnected graph input (some pair of in-range vertices
not connected), both algorithms terminate without error: `run_kruskal`
returns the minimum total weight over all connectivity-preserving edge
subsets (the minimum spanning forest weight, i.e. the sum of the component
MST weights), while `run_prim` returns the MST weight of the component of
start vertex 1 only, its loop ending with an empty queue and a visited list
shorter than `n`. -/
theorem C2_disconnected_behavior (n : Nat) (edges : List Edge) (adj : Adj)
    (hn : 1 ≤ n) (hE : endpointsOK n edges) (hAdj : AdjMatches adj edges)
    (hdisc : ∃ a b, 1 ≤ a ∧ a ≤ n ∧ 1 ≤ b ∧ b ≤ n ∧ ¬ lconn edges a b) :
    (∃ k, run_kruskal n edges = some k ∧ IsMSFWeight edges k) ∧
    (∃ p pq' V' adj',
      primLoop (adjSize adj + 2) n [(0, 1)] [] 0 adj = some (p, pq', V', adj') ∧
      run_prim n adj = some (p, adj') ∧ IsComp1MSTWeight edges p ∧
      pq' = [] ∧ V'.length < n) := by
  obtain ⟨a, b, ha1, ha2, hb1, hb2, hab⟩ := hdisc
  have hz : ∃ z, 1 ≤ z ∧ z ≤ n ∧ ¬ lconn edges 1 z := by
    by_cases h1a : lconn edges 1 a
    · exact ⟨b, hb1, hb2, fun h1b => hab (RST.trans (RST.symm h1a) h1b)⟩
    · exact ⟨a, ha1, ha2, h1a⟩
  obtain ⟨z, hz1, hz2, hz3⟩ := hz
  obtain ⟨k, hk, hkmsf⟩ := run_kruskal_msf n edges hE
  obtain ⟨p, pq', V', adj', hloop, hpmst, hnd', hVr', hexit⟩ :=
    run_prim_comp1 n edges adj hn hE hAdj
  have hprim : run_prim n adj = some (p, adj') := by
    simp [run_prim, hloop]
  have hlen : V'.length < n := by
    have hsub : V'.toFinset ⊆ (Finset.Icc 1 n).erase z := by
      intro x hx
      rw [List.mem_toFinset] at hx
      obtain ⟨h1, h2, h3⟩ := hVr' x hx
      rw [Finset.mem_erase, Finset.mem_Icc]
      exact ⟨fun hxz => hz3 (hxz ▸ h3), h1, h2⟩
    have hcard := Finset.card_le_card hsub
    rw [List.toFinset_card_of_nodup hnd'] at hcard
    have herase : ((Finset.Icc 1 n).erase z).card = (Finset.Icc 1 n).card - 1 :=
      Finset.card_erase_of_mem (by rw [Finset.mem_Icc]; exact ⟨hz1, hz2⟩)
    rw [herase, Nat.card_Icc] at hcard
    omega
  have hpq : pq' = [] := by
    rcases hexit with h | h
    · exact h
    · omega
  exact ⟨⟨k, hk, hkmsf⟩, p, pq', V', adj', hloop, hprim, hpmst, hpq, hlen⟩

/-- Witness for C2 at the concrete input `n = 2`, no edges, empty adjacency:
vertices 1 and 2 are disconnected, Kruskal returns the forest weight, and
Prim ends with an empty queue having visited fewer than 2 vertices. -/
theorem C2_witness :
    (∃ k, run_kruskal 2 [] = some k ∧ IsMSFWeight [] k) ∧
    (∃ p pq' V' adj',
      primLoop (adjSize ([] : Adj) + 2) 2 [(0, 1)] [] 0 [] = some (p, pq', V', adj') ∧
      run_prim 2 [] = some (p, adj') ∧ IsComp1MSTWeight [] p ∧
      pq' = [] ∧ V'.length < 2) := by
  refine C2_disconnected_behavior 2 [] [] (by decide) ?_ ?_ ⟨1, 2, ?_⟩
  · intro e he
    simp at he
  · intro a wt b
    constructor
    · intro h
      simp [AdjView, alookup] at h
    · intro h
      simp at h
  · refine ⟨by decide, by decide, by decide, by decide, fun h => ?_⟩
    exact absurd (lconn_nil.mp h) (by decide)
